import Mathlib

/-!
Verification development for the chess2 repository: a shallow embedding of
the rule engine (src/chess.py, src/game_model.py) and of the lockstep
scheduler / peer-synchronization protocol (src/main.py), together with
theorems settling the frozen claims about the specification.

Modelling conventions:
* Python dicts become association lists with functional get/set/del.
* Python object identity becomes a ghost `id` field on pieces (each piece
  is created with a fresh id, so record equality coincides with identity).
* Python's infinite move-generators (`itertools.count`) become rays truncated
  at `boardW + boardH` steps, which is beyond every in-bounds square, so the
  truncation is invisible to `base_moves` (which stops at the first
  out-of-bounds square of a ray).
* The king-capture callback (`on_die` installed by `GameModel.init`) is
  modelled by a `hasKingHandler` flag on pieces plus an `events` ghost log.
* `die`/creation additionally log ghost fields `graveyard`/`createdIds`
  so that liveness of pieces ("created and never died") is expressible.
* Modelled from the spec: the module `env` is not part of the sources, so
  `env.dev_mode` is taken as `False` (the spec gives per-piece cooldowns of
  60-80 ticks and a promotion cooldown), giving `Piece.freeze_time = 80`,
  `King.freeze_time = 60`, `Pawn.egg_time = 60`.
-/

/-- Coordinates on the board, `(x, y)` with integer components. -/
abbrev Coord := Int × Int

/-- The six piece kinds of src/chess.py. -/
inductive Kind where
  | rook | bishop | queen | knight | king | pawn
deriving DecidableEq, Repr

/-- A piece (class `Piece` of src/chess.py and its subclasses).
`id` is a ghost field standing for Python object identity;
`hasKingHandler` records whether `GameModel.init` installed the
king-captured `on_die` callback on this piece. -/
structure Piece where
  id : Nat
  kind : Kind
  player : Nat
  pos : Coord
  freezeUntil : Nat
  lastMoveTime : Option Nat
  lastPos : Option Coord
  hasKingHandler : Bool
deriving DecidableEq, Repr

/-- Piece.side: `player % 2`. -/
def Piece.side (p : Piece) : Nat := p.player % 2

/-- The board: a Python dict from coordinates to pieces, as an association list. -/
abbrev Board := List (Coord × Piece)

/-- Dict lookup (`d[k]` / `d.get(k)`). -/
def aget {κ β : Type} [DecidableEq κ] : List (κ × β) → κ → Option β
  | [], _ => none
  | e :: t, k => if e.1 = k then some e.2 else aget t k

/-- Dict deletion (`del d[k]`). -/
def adel {κ β : Type} [DecidableEq κ] : List (κ × β) → κ → List (κ × β)
  | [], _ => []
  | e :: t, k => if e.1 = k then adel t k else e :: adel t k

/-- Dict assignment (`d[k] = v`). -/
def aset {κ β : Type} [DecidableEq κ] (l : List (κ × β)) (k : κ) (v : β) :
    List (κ × β) :=
  (k, v) :: adel l k

/-- Act: the actions of src/main.py's Action Log (the `action_*` methods). -/
inductive Act where
  | move (src dst : Coord)
  | msg (txt : List String)
  | nick (words : List String)
  | reset (numBoards : Nat)
  | become (player : Option Nat)
  | forcestart
  | replay
  | endreplay
  | welcome (peer : Nat) (peerId : Nat)
  | help
  | credits
  | unknown (name : String)
deriving DecidableEq, Repr

/-- The single mutable game state: the fields of main.py's `Game`
(which duck-types game_model.py's `GameModel` for the rule engine:
`board`, `counter`, `player_freeze`, `board_size`, `in_bounds`).
`events`, `graveyard`, `createdIds`, `nextId` are ghost instrumentation. -/
structure Game where
  id : Nat
  counter : Nat
  curActions : List Act
  iterActions : List (Nat × List (Nat × List Act))
  peers : List Nat
  messages : List String
  nicknames : List (Nat × String)
  started : Bool
  isReplay : Bool
  replayCounter : Nat
  whoIsWho : List (Nat × Option Nat)
  player : Option Nat
  lastStart : Option Nat
  numBoards : Nat
  numPlayers : Nat
  board : Board
  boardW : Int
  boardH : Int
  playerFreeze : List (Nat × Nat)
  events : List Nat
  graveyard : List Nat
  createdIds : List Nat
  nextId : Nat
deriving DecidableEq, Repr

/-- in_bounds (game_model.py / main.py): both coordinates within the board size. -/
def inB (W H : Int) (c : Coord) : Bool :=
  decide (0 ≤ c.1 ∧ c.1 < W ∧ 0 ≤ c.2 ∧ c.2 < H)

/-- Ray truncation length: enough steps that every ray has left the board. -/
def fuelWH (W H : Int) : Nat := (W + H).toNat

/-- A movement ray: the squares `pos + d*dir` for `d = 1..fuel`
(the generator `((x+d, y) for d in count(1))` etc., truncated). -/
def rayL (pos : Coord) (dir : Coord) (fuel : Nat) : List Coord :=
  (List.range fuel).map
    (fun d : Nat => (pos.1 + ((d : Int) + 1) * dir.1, pos.2 + ((d : Int) + 1) * dir.2))

/-- Rook._moves direction order: +x, -x, +y, -y. -/
def rookDirs : List Coord := [(1, 0), (-1, 0), (0, 1), (0, -1)]

/-- Bishop._moves direction order: (+,+), (-,-), (+,-), (-,+). -/
def bishopDirs : List Coord := [(1, 1), (-1, -1), (1, -1), (-1, 1)]

/-- Streaks of a sliding piece along the given directions. -/
def slideStreaks (dirs : List Coord) (pos : Coord) (fuel : Nat) : List (List Coord) :=
  dirs.map (fun d => rayL pos d fuel)

/-- Knight._moves: eight singleton streaks, in source order
(`for a in [-1,1]: for b in [-2,2]: yield [(x+a,y+b)]; yield [(x+b,y+a)]`). -/
def knightStreaks (x y : Int) : List (List Coord) :=
  [[(x - 1, y - 2)], [(x - 2, y - 1)], [(x - 1, y + 2)], [(x + 2, y - 1)],
   [(x + 1, y - 2)], [(x - 2, y + 1)], [(x + 1, y + 2)], [(x + 2, y + 1)]]

/-- King._moves neighbor part: the eight singleton streaks around `(x, y)`
in source order (`for a in range(x-1, x+2): for b in range(y-1, y+2)`). -/
def kingNeighborStreaks (x y : Int) : List (List Coord) :=
  [[(x - 1, y - 1)], [(x - 1, y)], [(x - 1, y + 1)],
   [(x, y - 1)], [(x, y + 1)],
   [(x + 1, y - 1)], [(x + 1, y)], [(x + 1, y + 1)]]

/-- King.castling walk: from `dest` step by `direction` while in bounds; at the
first occupied square return the piece there when it is a Rook that never
moved and sits more than two squares from the King, else nothing. -/
def castlingAux (b : Board) (W H : Int) (x y d : Int) : Int → Nat → Option Piece
  | _, 0 => none
  | dest, Nat.succ fuel =>
    if inB W H (dest, y) then
      match aget b (dest, y) with
      | some piece =>
        if 2 < (dest - x).natAbs ∧ piece.kind = Kind.rook ∧ piece.lastMoveTime = none
        then some piece else none
      | none => castlingAux b W H x y d (dest + d) fuel
    else none

/-- King.castling (src/chess.py:169): the walk started at `x + direction`. -/
def castlingB (b : Board) (W H : Int) (x y d : Int) : Option Piece :=
  castlingAux b W H x y d (x + d) (fuelWH W H + 1)

/-- Pawn._moves: the forward streak (one step, plus two steps from the start
row, truncated at the first occupied square) and the diagonal capture
streaks (present only when the diagonal square is occupied). -/
def pawnStreaks (b : Board) (side : Nat) (x y : Int) : List (List Coord) :=
  let sr : Int := if side ≠ 0 then 6 else 1
  let dl : Int := if side ≠ 0 then -1 else 1
  let m0 : List Coord := (x, y + dl) :: (if y = sr then [(x, y + 2 * dl)] else [])
  let m := m0.takeWhile (fun c => (aget b c).isNone)
  m :: (([x - 1, x + 1] : List Int).filterMap (fun a =>
    if (aget b (a, y + dl)).isSome then some [(a, y + dl)] else none))

/-- The `_moves` dispatch: the streak list of a piece of kind `k` at `pos`
owned by `player` whose `last_move_time` is `lmt`. -/
def streaksOf (b : Board) (W H : Int) (k : Kind) (pos : Coord) (player : Nat)
    (lmt : Option Nat) : List (List Coord) :=
  match k with
  | Kind.rook => slideStreaks rookDirs pos (fuelWH W H)
  | Kind.bishop => slideStreaks bishopDirs pos (fuelWH W H)
  | Kind.queen =>
      slideStreaks rookDirs pos (fuelWH W H) ++ slideStreaks bishopDirs pos (fuelWH W H)
  | Kind.knight => knightStreaks pos.1 pos.2
  | Kind.king =>
      kingNeighborStreaks pos.1 pos.2 ++
      (if lmt = none then
        ([-1, 1] : List Int).filterMap (fun d =>
          if (castlingB b W H pos.1 pos.2 d).isSome
          then some [(pos.1 + d * 2, pos.2)] else none)
       else [])
  | Kind.pawn => pawnStreaks b (player % 2) pos.1 pos.2

/-- Piece.base_moves inner loop on one streak: stop before a same-side piece,
stop at the board edge, yield an opposing occupant and stop, yield empty
in-bounds squares and continue. -/
def streakTake (b : Board) (W H : Int) (side : Nat) : List Coord → List Coord
  | [] => []
  | dst :: rest =>
    match aget b dst with
    | some q =>
      if q.player % 2 = side then []
      else if inB W H dst then [dst] else []
    | none => if inB W H dst then dst :: streakTake b W H side rest else []

/-- Piece.base_moves over explicit fields (board, bounds, kind, position,
owner, last-move time). -/
def baseMovesOf (b : Board) (W H : Int) (k : Kind) (pos : Coord) (player : Nat)
    (lmt : Option Nat) : List Coord :=
  (streaksOf b W H k pos player lmt).flatMap (streakTake b W H (player % 2))

/-- Piece.base_moves of a piece in a game state. -/
def baseMoves (g : Game) (p : Piece) : List Coord :=
  baseMovesOf g.board g.boardW g.boardH p.kind p.pos p.player p.lastMoveTime

/-- Piece.moves: nothing while the piece or its player is frozen, else base_moves. -/
def movesF (g : Game) (p : Piece) : List Coord :=
  if g.counter < max p.freezeUntil ((aget g.playerFreeze p.player).getD 0) then []
  else baseMoves g p

/-- King.sight threat scan on one streak: walk until out of bounds; at the
first occupied square, yield it when its occupant's base_moves contain the
King's square, then stop. -/
def kingThreatScan (b : Board) (W H : Int) (kpos : Coord) : List Coord → List Coord
  | [] => []
  | pos :: rest =>
    if inB W H pos then
      match aget b pos with
      | some q =>
        if kpos ∈ baseMovesOf b W H q.kind q.pos q.player q.lastMoveTime
        then [pos] else []
      | none => kingThreatScan b W H kpos rest
    else []

/-- King.sight extra squares: the scan over Knight streaks then Queen streaks
(`itertools.chain(Knight._moves(*self.pos), Queen._moves(*self.pos))`). -/
def kingThreat (b : Board) (W H : Int) (kpos : Coord) : List Coord :=
  (knightStreaks kpos.1 kpos.2 ++
   (slideStreaks rookDirs kpos (fuelWH W H) ++ slideStreaks bishopDirs kpos (fuelWH W H))).flatMap
    (kingThreatScan b W H kpos)

/-- Piece.sight over explicit fields: base_moves, plus the Pawn's in-bounds
diagonal squares, plus the King's threat squares. -/
def sightOf (b : Board) (W H : Int) (k : Kind) (pos : Coord) (player : Nat)
    (lmt : Option Nat) : List Coord :=
  match k with
  | Kind.pawn =>
      baseMovesOf b W H k pos player lmt ++
      (let dl : Int := if player % 2 ≠ 0 then -1 else 1
       ([pos.1 - 1, pos.1 + 1] : List Int).filterMap (fun a =>
         if inB W H (a, pos.2 + dl) then some (a, pos.2 + dl) else none))
  | Kind.king => baseMovesOf b W H k pos player lmt ++ kingThreat b W H pos
  | _ => baseMovesOf b W H k pos player lmt

/-- Piece.sight of a piece in a game state. -/
def sightF (g : Game) (p : Piece) : List Coord :=
  sightOf g.board g.boardW g.boardH p.kind p.pos p.player p.lastMoveTime

/-- Per-piece cooldown constants (`freeze_time`): 80 for ordinary pieces,
60 for the King (with `env.dev_mode` taken as `False`, see the header). -/
def freezeTime : Kind → Nat
  | Kind.king => 60
  | _ => 80

/-- Shared per-player cooldown (`player_freeze_time = 20`). -/
def playerFreezeTime : Nat := 20

/-- Promotion cooldown (`Pawn.egg_time`). -/
def eggTime : Nat := 60

/-- Piece.die: remove the piece from the board when it still owns its square,
then run `on_die` (the king-captured callback when installed). The id is
logged in the ghost graveyard. -/
def pieceDie (g : Game) (p : Piece) : Game :=
  let g1 := if aget g.board p.pos = some p
            then { g with board := adel g.board p.pos } else g
  let g2 := { g1 with graveyard := g1.graveyard ++ [p.id] }
  if p.kind = Kind.king ∧ p.hasKingHandler = true
  then { g2 with events := g2.events ++ [p.player] } else g2

/-- Result of a move attempt: performed, silently rejected, or a raised
exception (a failed assertion) that the scheduler's per-action handler catches. -/
inductive MoveOut where
  | ok | fail | err
deriving DecidableEq, Repr

/-- The moved piece as stored back on the board by Piece.move: last_pos and
last_move_time recorded, position updated, per-piece cooldown started. -/
def movedPiece (g : Game) (p : Piece) (pos : Coord) : Piece :=
  { p with lastPos := some p.pos, lastMoveTime := some g.counter, pos := pos,
           freezeUntil := g.counter + freezeTime p.kind }

/-- The mutation part of Piece.move: vacate the source square, capture any
occupant of the destination, occupy it, start both cooldowns. -/
def baseMoveCore (g : Game) (p : Piece) (pos : Coord) : Game :=
  let g1 := { g with board := adel g.board p.pos }
  let g2 := match aget g1.board pos with
    | some victim => pieceDie g1 victim
    | none => g1
  { g2 with board := aset g2.board pos (movedPiece g p pos),
            playerFreeze := aset g2.playerFreeze p.player (g.counter + playerFreezeTime) }

/-- Piece.move (src/chess.py:40): reject when the source square's occupant is
not this piece or the destination is not among its current moves; otherwise
perform the move. -/
def baseMove (g : Game) (p : Piece) (pos : Coord) : Game × MoveOut :=
  match aget g.board p.pos with
  | none => (g, MoveOut.err)
  | some q =>
    if q ≠ p ∨ pos ∉ movesF g p then (g, MoveOut.fail)
    else (baseMoveCore g p pos, MoveOut.ok)

/-- The castling mutation of King.move: the King vacates its square and takes
`pos`; the found Rook is deleted at its own recorded position and reinserted
one square from the King's start, toward the Rook. No legality, cooldown or
last-move bookkeeping happens. -/
def castleCore (g : Game) (p : Piece) (pos : Coord) (rk : Piece) (d : Int) : Game :=
  let b1 := adel g.board p.pos
  let b2 := aset b1 pos { p with pos := pos }
  let b3 := adel b2 rk.pos
  { g with board := aset b3 (p.pos.1 + d, p.pos.2) { rk with pos := (p.pos.1 + d, p.pos.2) } }

/-- King.move (src/chess.py:140): one-step moves go through Piece.move; a
farther destination asserts the rank is unchanged (an assertion error
otherwise) and attempts castling. -/
def kingMoveF (g : Game) (p : Piece) (pos : Coord) : Game × MoveOut :=
  if (pos.1 - p.pos.1).natAbs ≤ 1 then baseMove g p pos
  else if pos.2 ≠ p.pos.2 then (g, MoveOut.err)
  else
    match castlingB g.board g.boardW g.boardH p.pos.1 p.pos.2
        (if p.pos.1 < pos.1 then 1 else -1) with
    | none => (g, MoveOut.fail)
    | some rk => (castleCore g p pos rk (if p.pos.1 < pos.1 then 1 else -1), MoveOut.ok)

/-- The promotion mutation of Pawn.move: the moved pawn dies and a fresh
same-player Queen carrying the egg cooldown takes its square. -/
def promoteCore (g1 : Game) (p moved : Piece) (pos : Coord) : Game :=
  let g2 := pieceDie g1 moved
  let q : Piece :=
    { id := g2.nextId, kind := Kind.queen, player := p.player, pos := pos,
      freezeUntil := g2.counter + eggTime, lastMoveTime := none,
      lastPos := none, hasKingHandler := false }
  { g2 with board := aset g2.board pos q, nextId := g2.nextId + 1,
            createdIds := g2.createdIds ++ [g2.nextId] }

/-- Pawn.move (src/chess.py:184): Piece.move, then on reaching the terminal
rank the pawn dies and a same-player Queen with the egg cooldown replaces it. -/
def pawnMoveF (g : Game) (p : Piece) (pos : Coord) : Game × MoveOut :=
  match baseMove g p pos with
  | (g1, MoveOut.ok) =>
    if (p.player % 2 = 0 ∧ pos.2 = 7) ∨ (p.player % 2 = 1 ∧ pos.2 = 0) then
      match aget g1.board pos with
      | some moved => (promoteCore g1 p moved pos, MoveOut.ok)
      | none => (g1, MoveOut.ok)
    else (g1, MoveOut.ok)
  | r => r

/-- The move-method dispatch over piece kinds. -/
def doMove (g : Game) (p : Piece) (pos : Coord) : Game × MoveOut :=
  match p.kind with
  | Kind.king => kingMoveF g p pos
  | Kind.pawn => pawnMoveF g p pos
  | _ => baseMove g p pos

/-- first_row (src/chess.py:217). -/
def firstRow : List Kind :=
  [Kind.rook, Kind.knight, Kind.bishop, Kind.queen, Kind.king, Kind.bishop,
   Kind.knight, Kind.rook]

/-- Army anchors `[(0,0,1), (0,7,6), (8,0,1), (8,7,6)]` of the init functions. -/
def startTriples : List (Int × Int × Int) := [(0, 0, 1), (0, 7, 6), (8, 0, 1), (8, 7, 6)]

/-- Piece.__init__: create a piece (fresh ghost id) and put it on the board. -/
def spawn (g : Game) (k : Kind) (who : Nat) (pos : Coord) (handler : Bool) : Game :=
  { g with board := aset g.board pos
             { id := g.nextId, kind := k, player := who, pos := pos,
               freezeUntil := 0, lastMoveTime := none, lastPos := none,
               hasKingHandler := handler },
           nextId := g.nextId + 1,
           createdIds := g.createdIds ++ [g.nextId] }

/-- One army: for each column, the first-row piece (with the king-captured
handler when `handler` is set, as in GameModel.init) and its pawn. -/
def buildArmy (handler : Bool) (g : Game) (who : Nat) (x y0 y1 : Int) : Game :=
  firstRow.enum.foldl (fun g e =>
    spawn (spawn g e.2 who (x + (e.1 : Int), y0)
             (handler && (e.2 == Kind.king)))
      Kind.pawn who (x + (e.1 : Int), y1) false) g

/-- Shared body of GameModel.init and Game.init_board: set the board size and
build `2*num_boards` armies from the anchor list. -/
def initBoardWith (handler : Bool) (g : Game) (nb : Nat) : Game :=
  let g0 := { g with numBoards := nb, board := [], boardW := 8 * (nb : Int),
                     boardH := 8, numPlayers := nb * 2 }
  ((startTriples.take (nb * 2)).enum).foldl
    (fun g e => buildArmy handler g e.1 e.2.1 e.2.2.1 e.2.2.2) g0

/-- GameModel.init (src/game_model.py:13): installs the king-captured handler
and records `last_start`. -/
def gmInitBoard (g : Game) (nb : Nat) : Game :=
  { initBoardWith true g nb with lastStart := some g.counter }

/-- Game.init_board (src/main.py:113): same layout, no king handler installed. -/
def mainInitBoard (g : Game) (nb : Nat) : Game :=
  initBoardWith false g nb

/-- A fresh game state (the non-UI, non-network fields of `Game.__init__` /
`GameModel.__init__`). -/
def newGame : Game :=
  { id := 0, counter := 0, curActions := [], iterActions := [], peers := [],
    messages := [], nicknames := [], started := false, isReplay := false,
    replayCounter := 0, whoIsWho := [], player := none, lastStart := none,
    numBoards := 1, numPlayers := 2, board := [], boardW := 8, boardH := 8,
    playerFreeze := [], events := [], graveyard := [], createdIds := [],
    nextId := 0 }

/-- GameModel.init applied to a fresh state. -/
def gmInit (nb : Nat) : Game := gmInitBoard newGame nb

/-- The latency constant of src/main.py:49. -/
def latency : Nat := 5

/-- Append a line to the message log (`self.messages.append(...)`). -/
def addMsg (g : Game) (s : String) : Game := { g with messages := g.messages ++ [s] }

/-- Game.nick: the display name of a peer id, defaulting to `anonymouse`. -/
def nickOf (g : Game) (i : Nat) : String := (aget g.nicknames i).getD "anonymouse"

/-- action_reset (src/main.py:306): rebuild the board (main.py's init_board,
no king handler) and clear the session flags. -/
def actionReset (g : Game) (nb : Nat) : Game :=
  let g1 := mainInitBoard g nb
  { g1 with player := none, started := false, whoIsWho := [] }

/-- action_move (src/main.py:283): before the session has started (with peers
connected) a move instead tries to start the session, demanding every player
slot be claimed; otherwise the piece at the source square (when present)
executes the move. The Bool is true when the move raised (the King's rank
assertion), to be caught by the scheduler. -/
def actionMove (g : Game) (src dst : Coord) : Game × Bool :=
  if ¬g.started = true ∧ ¬g.isReplay = true ∧ g.peers ≠ [] then
    (if ((g.whoIsWho.filterMap Prod.snd).dedup).length = g.numPlayers
     then { g with started := true, lastStart := some g.counter }
     else addMsg g "CANNOT START WITH ORPHANED ARMIES", false)
  else
    match aget g.board src with
    | none => (g, false)
    | some p =>
      match doMove g p dst with
      | (g2, MoveOut.err) => (g2, true)
      | (g2, _) => (g2, false)

/-- action_become (src/main.py:331): claim or release a player slot. -/
def actionBecome (g : Game) (i : Nat) (pl : Option Nat) : Game :=
  let g1 := if i = g.id then { g with player := pl } else g
  let g2 := { g1 with whoIsWho := aset g1.whoIsWho i pl }
  addMsg g2 (nickOf g2 i ++ " becomes " ++
    (match pl with
     | none => "spectator"
     | some p => (if p % 2 = 0 then "White" else "Black") ++ "#" ++ toString (p / 2)))

/-- action_nick (src/main.py:271): set the display name of the issuer. -/
def actionNick (g : Game) (i : Nat) (ws : List String) : Game :=
  let name0 := String.intercalate "-" ws
  let name := if name0 = "" then "null-boy" else name0
  let g1 := addMsg g (nickOf g i ++ " is now " ++ name)
  { g1 with nicknames := aset g1.nicknames i name }

/-- action_replay (src/main.py:319): when a game was played, inject an
endreplay action at the current tick, rewind the replay cursor to
last_start, reset the board and enter replay mode. -/
def actionReplay (g : Game) (i : Nat) : Game :=
  match g.lastStart with
  | none => addMsg g "NO GAME WAS PLAYED"
  | some ls =>
    let inner := aset ((aget g.iterActions g.counter).getD []) i [Act.endreplay]
    let g1 := { g with iterActions := aset g.iterActions g.counter inner,
                       replayCounter := ls }
    let g2 := actionReset g1 g1.numBoards
    { g2 with isReplay := true }

/-- The nickname re-announcement ending action_welcome: when we have a
nickname on record, queue a `nick` action into the outbox. -/
def welcomeNick (g4 : Game) : Game :=
  if g4.id ∈ g4.nicknames.map Prod.fst
  then { g4 with curActions := g4.curActions ++ [Act.nick [nickOf g4 g4.id]] }
  else g4

/-- The peer-registration half of action_welcome, after the reset: unless the
sender is ourselves or already known, append it to the peer list, log two
lines, and re-announce the nickname. -/
def welcomeAfterReset (g1 : Game) (peer : Nat) (peerId : Nat) : Game :=
  if peerId = g1.id ∨ peer ∈ g1.peers then g1
  else welcomeNick (addMsg (addMsg { g1 with peers := g1.peers ++ [peer] }
    ("connecting to " ++ toString peer))
    "keys: F1=toggle-fullscreen | F2=choose-set | F3 = reset | F4 = 4-players")

/-- action_welcome (src/main.py:295): reset, then register the new peer
unless it is ourselves or already known, and re-announce our nickname. -/
def actionWelcome (g : Game) (peer : Nat) (peerId : Nat) : Game :=
  welcomeAfterReset (actionReset g 1) peer peerId

/-- Dispatch of one action to its `action_*` handler (the `getattr` lookup of
`Game.act`); the Bool result reports a raised exception. Message texts of
`help`/`credits` are abbreviated (no claim inspects them). -/
def runAction (g : Game) (i : Nat) : Act → Game × Bool
  | Act.move src dst => actionMove g src dst
  | Act.msg txt => (addMsg g (nickOf g i ++ ": " ++ String.intercalate " " txt), false)
  | Act.nick ws => (actionNick g i ws, false)
  | Act.reset nb => (actionReset g nb, false)
  | Act.become pl => (actionBecome g i pl, false)
  | Act.forcestart => ({ g with started := true, lastStart := some g.counter }, false)
  | Act.replay => (actionReplay g i, false)
  | Act.endreplay => ({ g with isReplay := false }, false)
  | Act.welcome peer pid => (actionWelcome g peer pid, false)
  | Act.help => (addMsg g "commands: <host> | /help | /reset [num-boards] | /nick <nickname> | /replay | /credits", false)
  | Act.credits => (addMsg g "Credits:", false)
  | Act.unknown _ => (g, false)

/-- The wire name of an action kind. -/
def actName : Act → String
  | Act.move _ _ => "move"
  | Act.msg _ => "msg"
  | Act.nick _ => "nick"
  | Act.reset _ => "reset"
  | Act.become _ => "become"
  | Act.forcestart => "forcestart"
  | Act.replay => "replay"
  | Act.endreplay => "endreplay"
  | Act.welcome _ _ => "welcome"
  | Act.help => "help"
  | Act.credits => "credits"
  | Act.unknown n => n

/-- Whether the handler bears the `quiet_action` decorator. -/
def isQuiet : Act → Bool
  | Act.move _ _ => true
  | Act.msg _ => true
  | Act.nick _ => true
  | Act.become _ => true
  | Act.welcome _ _ => true
  | _ => false

/-- A recognized action processed by `Game.act`'s inner loop: announced kinds
log `<nick> did <KIND>` first; a raised exception is caught and logged as a
failure. -/
def execKnown (g : Game) (i : Nat) (a : Act) : Game :=
  match runAction
      (if isQuiet a then g
       else addMsg g (nickOf g i ++ " did " ++ (actName a).toUpper)) i a with
  | (g2, true) => addMsg g2 ("action " ++ actName a ++ " failed")
  | (g2, false) => g2

/-- One action processed by `Game.act`'s inner loop: unknown kinds only log an
error line, recognized kinds are executed. -/
def execAct (g : Game) (i : Nat) (a : Act) : Game :=
  match a with
  | Act.unknown n => addMsg g (n ++ ": no such action")
  | _ => execKnown g i a

/-- The contributor table recorded for tick `t`
(`self.iter_actions.get(t, {})`). -/
def tickEntries (g : Game) (t : Nat) : List (Nat × List Act) :=
  (aget g.iterActions t).getD []

/-- `sorted(....items())`: contributions ordered by contributor id (ids are
distinct keys of a dict, so key order is the Python tuple order). -/
def sortContribs (l : List (Nat × List Act)) : List (Nat × List Act) :=
  l.mergeSort (fun a b => a.1 ≤ b.1)

/-- Apply a sealed tick's contributor list in order through the Action Log. -/
def applyAll (g : Game) (l : List (Nat × List Act)) : Game :=
  l.foldl (fun g e => e.2.foldl (fun g a => execAct g e.1 a) g) g

/-- Game.act (src/main.py:493): advance unconditionally during the first
`latency` ticks; wait while fewer than `len(peers)+1` contributors are
recorded for the current tick; otherwise seal the tick: apply all its
contributions sorted by contributor id (plus, in replay mode, the historical
tick at the replay cursor), then advance the counter by one. The replay
lookup uses an empty default where Python would raise a KeyError on a
missing entry (the entry always exists in real runs, seeded by
`communicate`/`iteration`). -/
def act (g : Game) : Game :=
  if g.counter < latency then { g with counter := g.counter + 1 }
  else if (tickEntries g g.counter).length ≤ g.peers.length then g
  else
    let l := sortContribs (tickEntries g g.counter) ++
      (if g.isReplay = true then sortContribs (tickEntries g g.replayCounter) else [])
    let g1 := if g.isReplay = true then { g with replayCounter := g.replayCounter + 1 } else g
    let g2 := applyAll g1 l
    { g2 with counter := g2.counter + 1 }

/-- The tick indices of the outgoing packet's sliding window:
`range(max(0, counter-latency), counter+latency)` (natural subtraction is
Python's `max(0, ...)`). -/
def windowTicks (g : Game) : List Nat :=
  List.range' (g.counter - latency) ((g.counter + latency) - (g.counter - latency))

/-- The wire packet of Game.communicate (src/main.py:465): the sender id with,
for every tick of the sliding window, that tick's own recorded actions
(empty when none were recorded yet, as `setdefault` supplies). -/
def packet (g : Game) : Nat × List (Nat × List Act) :=
  (g.id, (windowTicks g).map (fun i =>
    (i, (aget ((aget g.iterActions i).getD []) g.id).getD [])))

/-- The datagrams sent by one call of Game.communicate: the same packet to
every known peer. -/
def sends (g : Game) : List (Nat × (Nat × List (Nat × List Act))) :=
  g.peers.map (fun pr => (pr, packet g))

/-- Feeding a tick's contributor table directly into the synchronization
buffer at the current tick (the network-ingest half of `communicate`,
abstracted: the claims quantify over the ingested contributions). -/
def feed (g : Game) (c : List (Nat × List Act)) : Game :=
  { g with iterActions := aset g.iterActions g.counter c }

/-- An engine instance consuming an ordered sequence of per-tick
contribution tables: feed each, then run the scheduler once. -/
def runTicks (g : Game) (l : List (List (Nat × List Act))) : Game :=
  l.foldl (fun g c => act (feed g c)) g

/-- Lookup success puts the entry in the list. -/
theorem aget_mem {κ β : Type} [DecidableEq κ] {l : List (κ × β)} {k : κ} {v : β}
    (h : aget l k = some v) : (k, v) ∈ l := by
  induction l with
  | nil => simp [aget] at h
  | cons e t ih =>
    obtain ⟨a, b⟩ := e
    rw [aget] at h
    by_cases he : a = k
    · subst he
      simp at h
      subst h
      exact List.mem_cons_self _ _
    · rw [if_neg he] at h
      exact List.mem_cons_of_mem _ (ih h)

/-- Membership in a deletion. -/
theorem mem_adel {κ β : Type} [DecidableEq κ] {l : List (κ × β)} {k : κ} {e : κ × β} :
    e ∈ adel l k ↔ e ∈ l ∧ e.1 ≠ k := by
  induction l with
  | nil => simp [adel]
  | cons f t ih =>
    rw [adel]
    by_cases hf : f.1 = k
    · rw [if_pos hf, ih]
      constructor
      · exact fun h => ⟨List.mem_cons_of_mem _ h.1, h.2⟩
      · rintro ⟨h1, h2⟩
        rcases List.mem_cons.1 h1 with rfl | h1
        · exact absurd hf h2
        · exact ⟨h1, h2⟩
    · rw [if_neg hf]
      constructor
      · intro h
        rcases List.mem_cons.1 h with rfl | h1
        · exact ⟨List.mem_cons_self _ _, hf⟩
        · exact ⟨List.mem_cons_of_mem _ (ih.1 h1).1, (ih.1 h1).2⟩
      · rintro ⟨h1, h2⟩
        rcases List.mem_cons.1 h1 with rfl | h1
        · exact List.mem_cons_self _ _
        · exact List.mem_cons_of_mem _ (ih.2 ⟨h1, h2⟩)

/-- Deletion is a sublist. -/
theorem adel_sublist {κ β : Type} [DecidableEq κ] (l : List (κ × β)) (k : κ) :
    (adel l k).Sublist l := by
  induction l with
  | nil => simp [adel]
  | cons f t ih =>
    rw [adel]
    by_cases hf : f.1 = k
    · rw [if_pos hf]
      exact ih.trans (List.sublist_cons_self f t)
    · rw [if_neg hf]
      exact List.Sublist.cons₂ f ih

/-- Lookup after assignment at the assigned key. -/
theorem aget_aset_self {κ β : Type} [DecidableEq κ] (l : List (κ × β)) (k : κ) (v : β) :
    aget (aset l k v) k = some v := by
  simp [aset, aget]

/-- Lookup after deletion at another key. -/
theorem aget_adel_ne {κ β : Type} [DecidableEq κ] (l : List (κ × β)) {k k' : κ}
    (h : k' ≠ k) : aget (adel l k) k' = aget l k' := by
  induction l with
  | nil => rfl
  | cons f t ih =>
    rw [adel]
    by_cases hf : f.1 = k
    · rw [if_pos hf, ih, aget]
      have hne : ¬f.1 = k' := by
        rw [hf]
        intro hh
        exact h hh.symm
      rw [if_neg hne]
    · rw [if_neg hf, aget, aget]
      by_cases hk' : f.1 = k'
      · rw [if_pos hk', if_pos hk']
      · rw [if_neg hk', if_neg hk', ih]

/-- Lookup after assignment at another key. -/
theorem aget_aset_ne {κ β : Type} [DecidableEq κ] (l : List (κ × β)) {k k' : κ} (v : β)
    (h : k' ≠ k) : aget (aset l k v) k' = aget l k' := by
  rw [aset, aget]
  have hne : ¬((k, v).1 = k') := fun hh => h hh.symm
  rw [if_neg hne]
  exact aget_adel_ne l h

/-- Lookup after deletion at the deleted key. -/
theorem aget_adel_self {κ β : Type} [DecidableEq κ] (l : List (κ × β)) (k : κ) :
    aget (adel l k) k = none := by
  induction l with
  | nil => rfl
  | cons f t ih =>
    rw [adel]
    by_cases hf : f.1 = k
    · rw [if_pos hf]
      exact ih
    · rw [if_neg hf, aget, if_neg hf]
      exact ih

/-- The deleted key is absent from the deletion's keys. -/
theorem not_mem_keys_adel {κ β : Type} [DecidableEq κ] (l : List (κ × β)) (k : κ) :
    k ∉ (adel l k).map Prod.fst := by
  intro h
  obtain ⟨e, he, hek⟩ := List.mem_map.1 h
  exact (mem_adel.1 he).2 hek

/-- Deletion preserves distinctness of keys. -/
theorem keys_nodup_adel {κ β : Type} [DecidableEq κ] {l : List (κ × β)} (k : κ)
    (h : (l.map Prod.fst).Nodup) : ((adel l k).map Prod.fst).Nodup :=
  List.Nodup.sublist ((adel_sublist l k).map Prod.fst) h

/-- Assignment preserves distinctness of keys. -/
theorem keys_nodup_aset {κ β : Type} [DecidableEq κ] {l : List (κ × β)} (k : κ) (v : β)
    (h : (l.map Prod.fst).Nodup) : ((aset l k v).map Prod.fst).Nodup := by
  simp only [aset, List.map_cons, List.nodup_cons]
  exact ⟨not_mem_keys_adel l k, keys_nodup_adel k h⟩

/-- The ghost identities present on a board. -/
def bids (b : Board) : List Nat := b.map (fun e => e.2.id)

/-- Deletion's identities form a sublist of the board's. -/
theorem bids_adel_sublist (b : Board) (c : Coord) : (bids (adel b c)).Sublist (bids b) := by
  unfold bids
  exact List.Sublist.map _ (adel_sublist b c)

/-- Deleting a square preserves distinctness of identities. -/
theorem bids_nodup_adel {b : Board} (c : Coord) (h : (bids b).Nodup) :
    (bids (adel b c)).Nodup :=
  List.Nodup.sublist (bids_adel_sublist b c) h

/-- Identities on a deletion are identities of the original board. -/
theorem mem_bids_adel {b : Board} {c : Coord} {i : Nat} (h : i ∈ bids (adel b c)) :
    i ∈ bids b :=
  (bids_adel_sublist b c).mem h

/-- With distinct identities, the piece found at a square is the only bearer
of its identity: after deleting that square its identity is gone. -/
theorem id_gone_after_adel {b : Board} {c : Coord} {p : Piece}
    (hn : (bids b).Nodup) (hg : aget b c = some p) : p.id ∉ bids (adel b c) := by
  induction b with
  | nil => simp [aget] at hg
  | cons e t ih =>
    obtain ⟨a, q⟩ := e
    have hn0 : (q.id :: bids t).Nodup := by simpa [bids] using hn
    have hn1 : q.id ∉ bids t := (List.nodup_cons.1 hn0).1
    have hn2 : (bids t).Nodup := (List.nodup_cons.1 hn0).2
    rw [aget] at hg
    by_cases he : a = c
    · rw [if_pos he] at hg
      have hg' : q = p := by simpa using hg
      rw [adel, if_pos he]
      intro hmem
      exact (hg' ▸ hn1) (mem_bids_adel hmem)
    · rw [if_neg he] at hg
      rw [adel, if_neg he]
      intro hmem
      have hmem' : p.id = q.id ∨ p.id ∈ bids (adel t c) := by
        simpa [bids] using hmem
      have hpt : p.id ∈ bids t := List.mem_map.2 ⟨(c, p), aget_mem hg, rfl⟩
      rcases hmem' with h1 | h2
      · exact hn1 (h1 ▸ hpt)
      · exact ih hn2 hg h2

/-- Identities of an assignment. -/
theorem bids_aset (b : Board) (c : Coord) (p : Piece) :
    bids (aset b c p) = p.id :: bids (adel b c) := by
  simp [aset, bids]

/-- Key consistency: every board entry records its own key as its position. -/
def posC (b : Board) : Prop := ∀ e ∈ b, e.2.pos = e.1

/-- Key consistency survives deletion. -/
theorem posC_adel {b : Board} (c : Coord) (h : posC b) : posC (adel b c) :=
  fun e he => h e ((adel_sublist b c).mem he)

/-- Key consistency survives assignment of a piece recording the key. -/
theorem posC_aset {b : Board} {c : Coord} {p : Piece} (h : posC b) (hp : p.pos = c) :
    posC (aset b c p) := by
  intro e he
  rcases List.mem_cons.1 he with rfl | h2
  · exact hp
  · exact posC_adel c h e h2

/-- Key consistency names the looked-up piece's position. -/
theorem posC_aget {b : Board} {c : Coord} {p : Piece} (h : posC b)
    (hg : aget b c = some p) : p.pos = c :=
  h (c, p) (aget_mem hg)

/-- Well-formedness of a game state's board: distinct keys, distinct piece
identities, key consistency, and identities below the ghost id counter. -/
def WF (g : Game) : Prop :=
  (g.board.map Prod.fst).Nodup ∧ (bids g.board).Nodup ∧ posC g.board ∧
    ∀ e ∈ g.board, e.2.id < g.nextId

/-- A scheduler tick: the counter advance of `Game.act`. -/
def tickG (g : Game) : Game := { g with counter := g.counter + 1 }

/-- A move action reaching the Rule Engine (the started-session branch of
action_move): the piece currently at the source square, when any, executes
the move. -/
def moveStep (g : Game) (src dst : Coord) : Game :=
  match aget g.board src with
  | none => g
  | some p => (doMove g p dst).1

/-- States reachable through board initialization, scheduler ticks, and move
actions (ordinary moves, captures, castling, pawn promotion). -/
inductive Reach : Game → Prop
  | init : ∀ n : Nat, Reach (gmInit n)
  | tick : ∀ {g : Game}, Reach g → Reach (tickG g)
  | mv : ∀ {g : Game} (src dst : Coord), Reach g → Reach (moveStep g src dst)

/-- The board left by Piece.die: the square is cleared when the dying piece
still owns it. -/
theorem pieceDie_board (g : Game) (q : Piece) :
    (pieceDie g q).board =
      if aget g.board q.pos = some q then adel g.board q.pos else g.board := by
  unfold pieceDie
  by_cases h : aget g.board q.pos = some q <;>
    by_cases h2 : q.kind = Kind.king ∧ q.hasKingHandler = true <;>
      simp [h, h2]

/-- Piece.die does not touch the ghost id counter. -/
theorem pieceDie_nextId (g : Game) (q : Piece) : (pieceDie g q).nextId = g.nextId := by
  unfold pieceDie
  by_cases h : aget g.board q.pos = some q <;>
    by_cases h2 : q.kind = Kind.king ∧ q.hasKingHandler = true <;>
      simp [h, h2]

/-- Piece.die does not touch the tick counter. -/
theorem pieceDie_counter (g : Game) (q : Piece) : (pieceDie g q).counter = g.counter := by
  unfold pieceDie
  by_cases h : aget g.board q.pos = some q <;>
    by_cases h2 : q.kind = Kind.king ∧ q.hasKingHandler = true <;>
      simp [h, h2]

/-- Board-level well-formedness, relative to the ghost id counter. -/
def WFb (b : Board) (n : Nat) : Prop :=
  (b.map Prod.fst).Nodup ∧ (bids b).Nodup ∧ posC b ∧ ∀ e ∈ b, e.2.id < n

/-- Deletion preserves board well-formedness. -/
theorem WFb_adel {b : Board} {n : Nat} (c : Coord) (h : WFb b n) : WFb (adel b c) n :=
  ⟨keys_nodup_adel c h.1, bids_nodup_adel c h.2.1, posC_adel c h.2.2.1,
   fun e he => h.2.2.2 e ((adel_sublist b c).mem he)⟩

/-- Assignment of a piece recording the key, whose identity is fresh for the
rest of the board, preserves board well-formedness. -/
theorem WFb_aset {b : Board} {n : Nat} {c : Coord} {p : Piece} (h : WFb b n)
    (hpos : p.pos = c) (hid : p.id ∉ bids (adel b c)) (hn : p.id < n) :
    WFb (aset b c p) n := by
  refine ⟨keys_nodup_aset c p h.1, ?_, posC_aset h.2.2.1 hpos, ?_⟩
  · rw [bids_aset]
    exact List.nodup_cons.2 ⟨hid, bids_nodup_adel c h.2.1⟩
  · intro e he
    rcases List.mem_cons.1 he with rfl | h2
    · exact hn
    · exact h.2.2.2 e ((adel_sublist b c).mem h2)

/-- Raising the id bound preserves board well-formedness. -/
theorem WFb_mono {b : Board} {n n' : Nat} (h : WFb b n) (hle : n ≤ n') : WFb b n' :=
  ⟨h.1, h.2.1, h.2.2.1, fun e he => lt_of_lt_of_le (h.2.2.2 e he) hle⟩

/-- Well-formedness of a game state is board well-formedness. -/
theorem WF_iff (g : Game) : WF g ↔ WFb g.board g.nextId := Iff.rfl

/-- A successful castling walk found its rook somewhere on the board. -/
theorem castlingAux_mem {b : Board} {W H x y d : Int} {rk : Piece} :
    ∀ (fuel : Nat) (dest : Int), castlingAux b W H x y d dest fuel = some rk →
      ∃ w : Coord, aget b w = some rk := by
  intro fuel
  induction fuel with
  | zero => intro dest h; simp [castlingAux] at h
  | succ n ih =>
    intro dest h
    rw [castlingAux] at h
    split at h
    · split at h
      · split at h
        · rename_i piece hq hcond
          injection h with h1
          subst h1
          exact ⟨(dest, y), hq⟩
        · exact absurd h (by simp)
      · exact ih (dest + d) h
    · exact absurd h (by simp)

/-- A successful castling found its rook somewhere on the board. -/
theorem castlingB_mem {b : Board} {W H x y d : Int} {rk : Piece}
    (h : castlingB b W H x y d = some rk) : ∃ w : Coord, aget b w = some rk :=
  castlingAux_mem _ _ h

/-- A successful castling walk returns an unmoved rook. -/
theorem castlingAux_rook {b : Board} {W H x y d : Int} {rk : Piece} :
    ∀ (fuel : Nat) (dest : Int), castlingAux b W H x y d dest fuel = some rk →
      rk.kind = Kind.rook ∧ rk.lastMoveTime = none := by
  intro fuel
  induction fuel with
  | zero => intro dest h; simp [castlingAux] at h
  | succ n ih =>
    intro dest h
    rw [castlingAux] at h
    split at h
    · split at h
      · split at h
        · rename_i piece hq hcond
          injection h with h1
          subst h1
          exact ⟨hcond.2.1, hcond.2.2⟩
        · exact absurd h (by simp)
      · exact ih (dest + d) h
    · exact absurd h (by simp)

/-- A successful castling returns an unmoved rook. -/
theorem castlingB_rook {b : Board} {W H x y d : Int} {rk : Piece}
    (h : castlingB b W H x y d = some rk) :
    rk.kind = Kind.rook ∧ rk.lastMoveTime = none :=
  castlingAux_rook _ _ h

/-- Cases of Piece.move: a key error, a silent rejection, or the move. -/
theorem baseMove_cases (g : Game) (p : Piece) (pos : Coord) :
    baseMove g p pos = (g, MoveOut.err) ∨ baseMove g p pos = (g, MoveOut.fail) ∨
      (baseMove g p pos = (baseMoveCore g p pos, MoveOut.ok) ∧
        aget g.board p.pos = some p ∧ pos ∈ movesF g p) := by
  cases hq : aget g.board p.pos with
  | none => left; simp [baseMove, hq]
  | some q =>
    by_cases hc : q ≠ p ∨ pos ∉ movesF g p
    · right; left; simp [baseMove, hq, hc]
    · push_neg at hc
      right; right
      refine ⟨?_, ?_, hc.2⟩
      · simp [baseMove, hq, hc.1, hc.2]
      · exact congrArg some hc.1

/-- Piece.move preserves well-formedness. -/
theorem WF_baseMoveCore {g : Game} {p : Piece} (pos : Coord) (hwf : WF g)
    (hp : aget g.board p.pos = some p) : WF (baseMoveCore g p pos) := by
  have hb1 : WFb (adel g.board p.pos) g.nextId := WFb_adel _ hwf
  have hid1 : p.id ∉ bids (adel g.board p.pos) := id_gone_after_adel hwf.2.1 hp
  have hplt : p.id < g.nextId := hwf.2.2.2 (p.pos, p) (aget_mem hp)
  unfold baseMoveCore
  revert hb1 hid1
  cases hv : aget (adel g.board p.pos) pos with
  | none =>
    intro hb1 hid1
    simp only [hv]
    refine WFb_aset hb1 rfl ?_ hplt
    exact fun hmem => hid1 (mem_bids_adel hmem)
  | some victim =>
    intro hb1 hid1
    simp only [hv]
    have hvpos : victim.pos = pos := posC_aget hb1.2.2.1 hv
    have hdb : (pieceDie { g with board := adel g.board p.pos } victim).board =
        adel (adel g.board p.pos) pos := by
      rw [pieceDie_board, hvpos, if_pos hv]
    have hdn : (pieceDie { g with board := adel g.board p.pos } victim).nextId =
        g.nextId := pieceDie_nextId _ _
    show WFb (aset (pieceDie { g with board := adel g.board p.pos } victim).board pos
        (movedPiece g p pos)) (pieceDie { g with board := adel g.board p.pos } victim).nextId
    rw [hdb, hdn]
    have hb2 : WFb (adel (adel g.board p.pos) pos) g.nextId := WFb_adel _ hb1
    refine WFb_aset hb2 rfl ?_ hplt
    intro hmem
    exact hid1 (mem_bids_adel (mem_bids_adel hmem))

/-- On a board with distinct identities, entries are determined by identity. -/
theorem entry_eq_of_id_eq {b : Board} (hn : (bids b).Nodup) {c1 c2 : Coord}
    {q1 q2 : Piece} (h1 : (c1, q1) ∈ b) (h2 : (c2, q2) ∈ b) (hid : q1.id = q2.id) :
    (c1, q1) = (c2, q2) := by
  have hinj := List.inj_on_of_nodup_map (f := fun e : Coord × Piece => e.2.id)
    (by simpa [bids] using hn)
  exact hinj h1 h2 (by simpa using hid)

/-- The castling mutation preserves well-formedness. -/
theorem WF_castleCore {g : Game} {p rk : Piece} {pos : Coord} {d : Int} (hwf : WF g)
    (hp : aget g.board p.pos = some p) (hpk : p.kind = Kind.king)
    (hrk : ∃ w : Coord, aget g.board w = some rk) (hrkk : rk.kind = Kind.rook) :
    WF (castleCore g p pos rk d) := by
  obtain ⟨w, hw⟩ := hrk
  have hwpos : rk.pos = w := posC_aget hwf.2.2.1 hw
  have hplt : p.id < g.nextId := hwf.2.2.2 (p.pos, p) (aget_mem hp)
  have hrlt : rk.id < g.nextId := hwf.2.2.2 (w, rk) (aget_mem hw)
  have hrkp : rk ≠ p := by
    intro he
    rw [he, hpk] at hrkk
    cases hrkk
  have hrkpid : rk.id ≠ p.id := by
    intro he
    have hee := entry_eq_of_id_eq hwf.2.1 (aget_mem hw) (aget_mem hp) he
    injection hee with h1 h2
    exact hrkp h2
  have hwp_ne : rk.pos ≠ p.pos := by
    intro he
    rw [hwpos] at he
    rw [he] at hw
    rw [hw] at hp
    injection hp with h1
    exact hrkp h1
  have hb1 : WFb (adel g.board p.pos) g.nextId := WFb_adel _ hwf
  have hid1 : p.id ∉ bids (adel g.board p.pos) := id_gone_after_adel hwf.2.1 hp
  have hb2 : WFb (aset (adel g.board p.pos) pos { p with pos := pos }) g.nextId := by
    refine WFb_aset hb1 rfl ?_ hplt
    exact fun hmem => hid1 (mem_bids_adel hmem)
  have hga : aget (adel g.board p.pos) rk.pos = some rk := by
    rw [aget_adel_ne _ hwp_ne, hwpos]
    exact hw
  have hb3 : WFb (adel (aset (adel g.board p.pos) pos { p with pos := pos }) rk.pos)
      g.nextId := WFb_adel _ hb2
  have hidr : rk.id ∉ bids (adel (aset (adel g.board p.pos) pos { p with pos := pos })
      rk.pos) := by
    by_cases hposrk : pos = rk.pos
    · intro hmem
      have h1 := mem_bids_adel hmem
      rw [bids_aset] at h1
      rcases List.mem_cons.1 h1 with h2 | h3
      · exact hrkpid h2
      · rw [hposrk] at h3
        exact id_gone_after_adel hb1.2.1 hga h3
    · have hgX : aget (aset (adel g.board p.pos) pos { p with pos := pos }) rk.pos =
          some rk := by
        rw [aget_aset_ne _ _ (fun he => hposrk he.symm)]
        exact hga
      exact id_gone_after_adel hb2.2.1 hgX
  show WFb (aset _ (p.pos.1 + d, p.pos.2) _) g.nextId
  exact WFb_aset hb3 rfl (fun hmem => hidr (mem_bids_adel hmem)) hrlt

/-- The promotion mutation preserves well-formedness. -/
theorem WF_promoteCore {g1 : Game} {p moved : Piece} {pos : Coord} (hwf : WF g1)
    (hm : aget g1.board pos = some moved) : WF (promoteCore g1 p moved pos) := by
  have hmpos : moved.pos = pos := posC_aget hwf.2.2.1 hm
  have hdb : (pieceDie g1 moved).board = adel g1.board pos := by
    rw [pieceDie_board, hmpos, if_pos hm]
  have hdn : (pieceDie g1 moved).nextId = g1.nextId := pieceDie_nextId g1 moved
  have hb1 : WFb (adel g1.board pos) g1.nextId := WFb_adel _ hwf
  show WFb (aset (pieceDie g1 moved).board pos _) ((pieceDie g1 moved).nextId + 1)
  rw [hdb, hdn]
  refine WFb_aset (WFb_mono hb1 (Nat.le_succ _)) rfl ?_ (Nat.lt_succ_self _)
  intro hmem
  have h1 := mem_bids_adel (mem_bids_adel hmem)
  obtain ⟨e, he, hei⟩ := List.mem_map.1 h1
  have h3 := hwf.2.2.2 e he
  have h4 : e.2.id = g1.nextId := hei
  omega

/-- Piece.move, whatever its outcome, preserves well-formedness. -/
theorem WF_baseMove {g : Game} {p : Piece} (pos : Coord) (hwf : WF g) :
    WF (baseMove g p pos).1 := by
  rcases baseMove_cases g p pos with h | h | ⟨h, hp, _⟩ <;> rw [h]
  · exact hwf
  · exact hwf
  · exact WF_baseMoveCore pos hwf hp

/-- Pawn.move preserves well-formedness. -/
theorem WF_pawnMoveF {g : Game} {p : Piece} (pos : Coord) (hwf : WF g) :
    WF (pawnMoveF g p pos).1 := by
  unfold pawnMoveF
  rcases baseMove_cases g p pos with h | h | ⟨h, hsrc, _⟩ <;> rw [h]
  · exact hwf
  · exact hwf
  · have hwf1 : WF (baseMoveCore g p pos) := WF_baseMoveCore pos hwf hsrc
    show WF ((if (p.player % 2 = 0 ∧ pos.2 = 7) ∨ (p.player % 2 = 1 ∧ pos.2 = 0) then
        match aget (baseMoveCore g p pos).board pos with
        | some moved => (promoteCore (baseMoveCore g p pos) p moved pos, MoveOut.ok)
        | none => (baseMoveCore g p pos, MoveOut.ok)
      else (baseMoveCore g p pos, MoveOut.ok)).1)
    by_cases hterm : (p.player % 2 = 0 ∧ pos.2 = 7) ∨ (p.player % 2 = 1 ∧ pos.2 = 0)
    · rw [if_pos hterm]
      cases hmv : aget (baseMoveCore g p pos).board pos with
      | none => exact hwf1
      | some moved => exact WF_promoteCore hwf1 hmv
    · rw [if_neg hterm]
      exact hwf1

/-- King.move preserves well-formedness. -/
theorem WF_kingMoveF {g : Game} {p : Piece} (pos : Coord) (hwf : WF g)
    (hp : aget g.board p.pos = some p) (hpk : p.kind = Kind.king) :
    WF (kingMoveF g p pos).1 := by
  unfold kingMoveF
  by_cases h1 : (pos.1 - p.pos.1).natAbs ≤ 1
  · rw [if_pos h1]
    exact WF_baseMove pos hwf
  · rw [if_neg h1]
    by_cases h2 : pos.2 ≠ p.pos.2
    · rw [if_pos h2]
      exact hwf
    · rw [if_neg h2]
      cases hc : castlingB g.board g.boardW g.boardH p.pos.1 p.pos.2
          (if p.pos.1 < pos.1 then 1 else -1) with
      | none => exact hwf
      | some rk =>
        exact WF_castleCore hwf hp hpk (castlingB_mem hc) (castlingB_rook hc).1

/-- The move-method dispatch preserves well-formedness. -/
theorem WF_doMove {g : Game} {p : Piece} (pos : Coord) (hwf : WF g)
    (hp : aget g.board p.pos = some p) : WF (doMove g p pos).1 := by
  cases hk : p.kind
  case king =>
    have he : doMove g p pos = kingMoveF g p pos := by simp [doMove, hk]
    rw [he]
    exact WF_kingMoveF pos hwf hp hk
  case pawn =>
    have he : doMove g p pos = pawnMoveF g p pos := by simp [doMove, hk]
    rw [he]
    exact WF_pawnMoveF pos hwf
  case rook =>
    have he : doMove g p pos = baseMove g p pos := by simp [doMove, hk]
    rw [he]
    exact WF_baseMove pos hwf
  case bishop =>
    have he : doMove g p pos = baseMove g p pos := by simp [doMove, hk]
    rw [he]
    exact WF_baseMove pos hwf
  case queen =>
    have he : doMove g p pos = baseMove g p pos := by simp [doMove, hk]
    rw [he]
    exact WF_baseMove pos hwf
  case knight =>
    have he : doMove g p pos = baseMove g p pos := by simp [doMove, hk]
    rw [he]
    exact WF_baseMove pos hwf

/-- A move action preserves well-formedness. -/
theorem WF_moveStep {g : Game} (src dst : Coord) (hwf : WF g) :
    WF (moveStep g src dst) := by
  unfold moveStep
  revert hwf
  cases hp : aget g.board src with
  | none => exact fun hwf => hwf
  | some p =>
    intro hwf
    have hppos : p.pos = src := posC_aget hwf.2.2.1 hp
    exact WF_doMove dst hwf (by rw [hppos]; exact hp)

/-- Piece creation preserves well-formedness. -/
theorem WF_spawn {g : Game} (k : Kind) (who : Nat) (pos : Coord) (handler : Bool)
    (hwf : WF g) : WF (spawn g k who pos handler) := by
  show WFb (aset g.board pos _) (g.nextId + 1)
  refine WFb_aset (WFb_mono hwf (Nat.le_succ _)) rfl ?_ (Nat.lt_succ_self _)
  intro hmem
  have h1 := mem_bids_adel hmem
  obtain ⟨e, he, hei⟩ := List.mem_map.1 h1
  have h3 := hwf.2.2.2 e he
  have h4 : e.2.id = g.nextId := hei
  omega

/-- Folding a well-formedness preserving step preserves well-formedness. -/
theorem WF_foldl {α : Type} {f : Game → α → Game}
    (hf : ∀ (g : Game) (a : α), WF g → WF (f g a)) :
    ∀ (l : List α) (g : Game), WF g → WF (l.foldl f g) := by
  intro l
  induction l with
  | nil => exact fun g h => h
  | cons a t ih => exact fun g h => ih _ (hf g a h)

/-- Building an army preserves well-formedness. -/
theorem WF_buildArmy (handler : Bool) (who : Nat) (x y0 y1 : Int) {g : Game}
    (hwf : WF g) : WF (buildArmy handler g who x y0 y1) := by
  unfold buildArmy
  exact WF_foldl (fun g e h => WF_spawn _ _ _ _ (WF_spawn _ _ _ _ h)) _ _ hwf

/-- Board initialization yields a well-formed state. -/
theorem WF_initBoardWith (handler : Bool) (g : Game) (nb : Nat) :
    WF (initBoardWith handler g nb) := by
  unfold initBoardWith
  refine WF_foldl (fun g e h => WF_buildArmy handler e.1 e.2.1 e.2.2.1 e.2.2.2 h) _ _ ?_
  refine ⟨List.nodup_nil, List.nodup_nil, ?_, ?_⟩
  · intro e he
    exact absurd he (List.not_mem_nil e)
  · intro e he
    exact absurd he (List.not_mem_nil e)

/-- Every reachable state is well-formed: distinct keys, distinct piece
identities, key consistency. -/
theorem WF_reach {g : Game} (h : Reach g) : WF g := by
  induction h with
  | init n => exact WF_initBoardWith true newGame n
  | tick _ ih => exact ih
  | mv src dst _ ih => exact WF_moveStep src dst ih

/-- Appending a message leaves the tick counter unchanged. -/
theorem addMsg_counter (g : Game) (s : String) : (addMsg g s).counter = g.counter := rfl

/-- Piece.move leaves the tick counter unchanged. -/
theorem baseMoveCore_counter (g : Game) (p : Piece) (pos : Coord) :
    (baseMoveCore g p pos).counter = g.counter := by
  unfold baseMoveCore
  cases hv : aget (adel g.board p.pos) pos with
  | none => simp [hv]
  | some victim => simp [hv, pieceDie_counter]

/-- The promotion mutation leaves the tick counter unchanged. -/
theorem promoteCore_counter (g1 : Game) (p moved : Piece) (pos : Coord) :
    (promoteCore g1 p moved pos).counter = g1.counter := by
  unfold promoteCore
  simp [pieceDie_counter]

/-- Piece.move, whatever its outcome, leaves the tick counter unchanged. -/
theorem baseMove_counter (g : Game) (p : Piece) (pos : Coord) :
    (baseMove g p pos).1.counter = g.counter := by
  rcases baseMove_cases g p pos with h | h | ⟨h, _, _⟩ <;> rw [h]
  exact baseMoveCore_counter g p pos

/-- Pawn.move leaves the tick counter unchanged. -/
theorem pawnMoveF_counter (g : Game) (p : Piece) (pos : Coord) :
    (pawnMoveF g p pos).1.counter = g.counter := by
  unfold pawnMoveF
  rcases baseMove_cases g p pos with h | h | ⟨h, _, _⟩ <;> rw [h]
  show ((if (p.player % 2 = 0 ∧ pos.2 = 7) ∨ (p.player % 2 = 1 ∧ pos.2 = 0) then
      match aget (baseMoveCore g p pos).board pos with
      | some moved => (promoteCore (baseMoveCore g p pos) p moved pos, MoveOut.ok)
      | none => (baseMoveCore g p pos, MoveOut.ok)
    else (baseMoveCore g p pos, MoveOut.ok)).1.counter = g.counter)
  by_cases hterm : (p.player % 2 = 0 ∧ pos.2 = 7) ∨ (p.player % 2 = 1 ∧ pos.2 = 0)
  · rw [if_pos hterm]
    cases hmv : aget (baseMoveCore g p pos).board pos with
    | none => exact baseMoveCore_counter g p pos
    | some moved =>
      show (promoteCore (baseMoveCore g p pos) p moved pos).counter = g.counter
      rw [promoteCore_counter]
      exact baseMoveCore_counter g p pos
  · rw [if_neg hterm]
    exact baseMoveCore_counter g p pos

/-- King.move leaves the tick counter unchanged. -/
theorem kingMoveF_counter (g : Game) (p : Piece) (pos : Coord) :
    (kingMoveF g p pos).1.counter = g.counter := by
  unfold kingMoveF
  by_cases h1 : (pos.1 - p.pos.1).natAbs ≤ 1
  · rw [if_pos h1]
    exact baseMove_counter g p pos
  · rw [if_neg h1]
    by_cases h2 : pos.2 ≠ p.pos.2
    · rw [if_pos h2]
    · rw [if_neg h2]
      cases hc : castlingB g.board g.boardW g.boardH p.pos.1 p.pos.2
          (if p.pos.1 < pos.1 then 1 else -1) with
      | none => rfl
      | some rk => rfl

/-- The move dispatch leaves the tick counter unchanged. -/
theorem doMove_counter (g : Game) (p : Piece) (pos : Coord) :
    (doMove g p pos).1.counter = g.counter := by
  cases hk : p.kind
  case king =>
    rw [show doMove g p pos = kingMoveF g p pos from by simp [doMove, hk]]
    exact kingMoveF_counter g p pos
  case pawn =>
    rw [show doMove g p pos = pawnMoveF g p pos from by simp [doMove, hk]]
    exact pawnMoveF_counter g p pos
  case rook =>
    rw [show doMove g p pos = baseMove g p pos from by simp [doMove, hk]]
    exact baseMove_counter g p pos
  case bishop =>
    rw [show doMove g p pos = baseMove g p pos from by simp [doMove, hk]]
    exact baseMove_counter g p pos
  case queen =>
    rw [show doMove g p pos = baseMove g p pos from by simp [doMove, hk]]
    exact baseMove_counter g p pos
  case knight =>
    rw [show doMove g p pos = baseMove g p pos from by simp [doMove, hk]]
    exact baseMove_counter g p pos

/-- Folding a counter-preserving step preserves the counter. -/
theorem counter_foldl {α : Type} {f : Game → α → Game}
    (hf : ∀ (g : Game) (a : α), (f g a).counter = g.counter) :
    ∀ (l : List α) (g : Game), (l.foldl f g).counter = g.counter := by
  intro l
  induction l with
  | nil => exact fun g => rfl
  | cons a t ih => exact fun g => (ih (f g a)).trans (hf g a)

/-- Building an army leaves the tick counter unchanged. -/
theorem buildArmy_counter (handler : Bool) (who : Nat) (x y0 y1 : Int) (g : Game) :
    (buildArmy handler g who x y0 y1).counter = g.counter := by
  unfold buildArmy
  refine counter_foldl ?_ _ g
  intro g e
  rfl

/-- Board initialization leaves the tick counter unchanged. -/
theorem initBoardWith_counter (handler : Bool) (g : Game) (nb : Nat) :
    (initBoardWith handler g nb).counter = g.counter := by
  unfold initBoardWith
  refine counter_foldl ?_ _ _
  intro g e
  exact buildArmy_counter handler e.1 e.2.1 e.2.2.1 e.2.2.2 g

/-- action_reset leaves the tick counter unchanged. -/
theorem actionReset_counter (g : Game) (nb : Nat) :
    (actionReset g nb).counter = g.counter := by
  unfold actionReset mainInitBoard
  exact initBoardWith_counter false g nb

/-- The nickname re-announcement leaves the tick counter unchanged. -/
theorem welcomeNick_counter (g4 : Game) : (welcomeNick g4).counter = g4.counter := by
  unfold welcomeNick
  split
  · rfl
  · rfl

/-- Peer registration leaves the tick counter unchanged. -/
theorem welcomeAfterReset_counter (g1 : Game) (peer peerId : Nat) :
    (welcomeAfterReset g1 peer peerId).counter = g1.counter := by
  unfold welcomeAfterReset
  split
  · rfl
  · rw [welcomeNick_counter, addMsg_counter, addMsg_counter]

/-- Every Action Log handler leaves the tick counter unchanged. -/
theorem runAction_counter (g : Game) (i : Nat) (a : Act) :
    (runAction g i a).1.counter = g.counter := by
  cases a with
  | move src dst =>
    show (actionMove g src dst).1.counter = g.counter
    unfold actionMove
    by_cases h1 : ¬g.started = true ∧ ¬g.isReplay = true ∧ g.peers ≠ []
    · rw [if_pos h1]
      by_cases h2 : ((g.whoIsWho.filterMap Prod.snd).dedup).length = g.numPlayers
      · rw [if_pos h2]
      · rw [if_neg h2]
        rfl
    · rw [if_neg h1]
      cases hp : aget g.board src with
      | none => rfl
      | some p =>
        show ((match doMove g p dst with
          | (g2, MoveOut.err) => (g2, true)
          | (g2, _) => (g2, false)).1.counter = g.counter)
        have hd := doMove_counter g p dst
        cases hm : doMove g p dst with
        | mk g2 o =>
          rw [hm] at hd
          cases o
          · exact hd
          · exact hd
          · exact hd
  | msg txt => rfl
  | nick ws => rfl
  | reset nb => exact actionReset_counter g nb
  | become pl =>
    show (actionBecome g i pl).counter = g.counter
    simp only [actionBecome, addMsg]
    split <;> rfl
  | forcestart => rfl
  | replay =>
    show (actionReplay g i).counter = g.counter
    cases hls : g.lastStart with
    | none => simp [actionReplay, hls, addMsg]
    | some ls => simp [actionReplay, hls, actionReset_counter]
  | endreplay => rfl
  | welcome peer pid =>
    show (actionWelcome g peer pid).counter = g.counter
    unfold actionWelcome
    rw [welcomeAfterReset_counter]
    exact actionReset_counter g 1
  | help => rfl
  | credits => rfl
  | unknown n => rfl

/-- One processed action leaves the tick counter unchanged. -/
theorem execKnown_counter (g : Game) (i : Nat) (a : Act) :
    (execKnown g i a).counter = g.counter := by
  unfold execKnown
  have hg1 : (if isQuiet a then g
      else addMsg g (nickOf g i ++ " did " ++ (actName a).toUpper)).counter = g.counter := by
    split <;> rfl
  have hc := runAction_counter (if isQuiet a then g
      else addMsg g (nickOf g i ++ " did " ++ (actName a).toUpper)) i a
  cases hr : runAction (if isQuiet a then g
      else addMsg g (nickOf g i ++ " did " ++ (actName a).toUpper)) i a with
  | mk g2 raised =>
    rw [hr] at hc
    cases raised
    · exact (show g2.counter = _ from hc).trans hg1
    · show (addMsg g2 _).counter = g.counter
      rw [addMsg_counter]
      exact (show g2.counter = _ from hc).trans hg1

/-- The per-action dispatch of `Game.act` leaves the tick counter unchanged. -/
theorem execAct_counter (g : Game) (i : Nat) (a : Act) :
    (execAct g i a).counter = g.counter := by
  cases a with
  | unknown n => rfl
  | move src dst => exact execKnown_counter g i _
  | msg txt => exact execKnown_counter g i _
  | nick ws => exact execKnown_counter g i _
  | reset nb => exact execKnown_counter g i _
  | become pl => exact execKnown_counter g i _
  | forcestart => exact execKnown_counter g i _
  | replay => exact execKnown_counter g i _
  | endreplay => exact execKnown_counter g i _
  | welcome peer pid => exact execKnown_counter g i _
  | help => exact execKnown_counter g i _
  | credits => exact execKnown_counter g i _

/-- Applying a sealed tick's contributions leaves the tick counter unchanged. -/
theorem applyAll_counter (g : Game) (l : List (Nat × List Act)) :
    (applyAll g l).counter = g.counter := by
  unfold applyAll
  refine counter_foldl ?_ l g
  intro g e
  refine counter_foldl ?_ e.2 g
  intro g a
  exact execAct_counter g e.1 a

/-- C1: for any fixed ordered sequence of per-tick contributions, two engine
instances fed the identical sequence hold identical state (in particular an
identical board) after every tick; and within a sealed tick the contributions
are applied as the concatenation of the per-contributor lists sorted by
contributor id — a strict total order: sorted keys, a permutation of the
recorded entries (each entry keeping its within-contributor submission
order), and the sealed tick of a non-replaying engine literally applies that
sorted concatenation and then advances the counter. -/
theorem c1_lockstep_determinism :
    (∀ (g₁ g₂ : Game) (l₁ l₂ : List (List (Nat × List Act))), g₁ = g₂ → l₁ = l₂ →
      ∀ n : Nat, runTicks g₁ (l₁.take n) = runTicks g₂ (l₂.take n))
    ∧ (∀ l : List (Nat × List Act),
        ((sortContribs l).map Prod.fst).Sorted (· ≤ ·) ∧ (sortContribs l).Perm l)
    ∧ (∀ g : Game, latency ≤ g.counter →
        g.peers.length < (tickEntries g g.counter).length → g.isReplay = false →
        act g = { applyAll g (sortContribs (tickEntries g g.counter)) with
          counter := (applyAll g (sortContribs (tickEntries g g.counter))).counter + 1 }) := by
  refine ⟨?_, ?_, ?_⟩
  · intro g₁ g₂ l₁ l₂ hg hl n
    rw [hg, hl]
  · intro l
    constructor
    · have hp := @List.sorted_mergeSort (Nat × List Act)
        (fun a b => decide (a.1 ≤ b.1))
        (fun a b c hab hbc => by
          simp only [decide_eq_true_eq] at hab hbc ⊢
          omega)
        (fun a b => by
          simp only [Bool.or_eq_true, decide_eq_true_eq]
          omega) l
      show ((l.mergeSort (fun a b => decide (a.1 ≤ b.1))).map Prod.fst).Pairwise (· ≤ ·)
      rw [List.pairwise_map]
      exact hp.imp (fun h => by simpa using h)
    · exact List.mergeSort_perm l _
  · intro g h1 h2 hrep
    unfold act
    rw [if_neg (Nat.not_lt.2 h1), if_neg (Nat.not_le.2 h2), hrep]
    simp

/-- C2: the first `latency` ticks advance unconditionally; past the grace, a
tick with at most `len(peers)` recorded contributors is not sealed — repeated
scheduler advances leave the whole state (hence `tick_counter`) unchanged —
and a tick whose contributor count reaches `len(peers)+1` is sealed and
applied, advancing `tick_counter` by exactly one. -/
theorem c2_tick_gating (g : Game) :
    (g.counter < latency → act g = { g with counter := g.counter + 1 })
    ∧ (latency ≤ g.counter → (tickEntries g g.counter).length ≤ g.peers.length →
        ∀ n : Nat, act^[n] g = g)
    ∧ (latency ≤ g.counter → g.peers.length < (tickEntries g g.counter).length →
        (act g).counter = g.counter + 1) := by
  refine ⟨?_, ?_, ?_⟩
  · intro h
    unfold act
    rw [if_pos h]
  · intro h1 h2
    have hfix : act g = g := by
      unfold act
      rw [if_neg (Nat.not_lt.2 h1), if_pos h2]
    intro n
    induction n with
    | zero => rfl
    | succ n ih => rw [Function.iterate_succ_apply, hfix, ih]
  · intro h1 h2
    unfold act
    rw [if_neg (Nat.not_lt.2 h1), if_neg (Nat.not_le.2 h2)]
    show (applyAll
        (if g.isReplay = true then { g with replayCounter := g.replayCounter + 1 } else g)
        (sortContribs (tickEntries g g.counter) ++
          (if g.isReplay = true then sortContribs (tickEntries g g.replayCounter)
           else []))).counter + 1 = g.counter + 1
    rw [applyAll_counter]
    split
    · rfl
    · rfl

/-- A sealed state for the C1 witness: past the grace period, one tick with
two contributors recorded, no peers, not replaying. -/
def c1WitState : Game :=
  { newGame with counter := 5, iterActions := [(5, [(9, []), (4, [Act.help])])] }

/-- Witness for C1 at concrete inputs. -/
theorem c1_witness :
    (runTicks newGame ([[(3, [Act.help])]].take 1) =
      runTicks newGame ([[(3, [Act.help])]].take 1))
    ∧ (((sortContribs [(9, ([] : List Act)), (4, [Act.help])]).map Prod.fst).Sorted (· ≤ ·)
        ∧ (sortContribs [(9, ([] : List Act)), (4, [Act.help])]).Perm
            [(9, []), (4, [Act.help])])
    ∧ act c1WitState =
        { applyAll c1WitState (sortContribs (tickEntries c1WitState c1WitState.counter)) with
          counter := (applyAll c1WitState
            (sortContribs (tickEntries c1WitState c1WitState.counter))).counter + 1 } :=
  ⟨c1_lockstep_determinism.1 newGame newGame _ _ rfl rfl 1,
   c1_lockstep_determinism.2.1 _,
   c1_lockstep_determinism.2.2 c1WitState (by decide) (by decide) rfl⟩

/-- A stalled state for the C2 witness: two known peers but only two
contributors recorded for the current tick. -/
def c2WaitState : Game :=
  { newGame with
      counter := 7
      peers := [11, 12]
      iterActions := [(7, [(1, []), (2, [])])] }

/-- A sealed state for the C2 witness: no peers, two contributors recorded. -/
def c2SealState : Game :=
  { newGame with counter := 7, iterActions := [(7, [(1, []), (2, [])])] }

/-- Witness for C2 at concrete inputs. -/
theorem c2_witness :
    act newGame = { newGame with counter := newGame.counter + 1 }
    ∧ act^[4] c2WaitState = c2WaitState
    ∧ (act c2SealState).counter = c2SealState.counter + 1 :=
  ⟨(c2_tick_gating newGame).1 (by decide),
   (c2_tick_gating c2WaitState).2.1 (by decide) (by decide) 4,
   (c2_tick_gating c2SealState).2.2 (by decide) (by decide)⟩

/-- Piece.move stores the moved piece at the destination square. -/
theorem baseMoveCore_board_at (g : Game) (p : Piece) (pos : Coord) :
    aget (baseMoveCore g p pos).board pos = some (movedPiece g p pos) := by
  unfold baseMoveCore
  cases hv : aget (adel g.board p.pos) pos with
  | none => simp [hv, aget_aset_self]
  | some victim => simp [hv, aget_aset_self]

/-- Piece.die does not create pieces. -/
theorem pieceDie_nextId_eq (g : Game) (q : Piece) :
    (pieceDie g q).nextId = g.nextId := pieceDie_nextId g q

/-- Piece.die does not touch the player cooldown table. -/
theorem pieceDie_playerFreeze (g : Game) (q : Piece) :
    (pieceDie g q).playerFreeze = g.playerFreeze := by
  unfold pieceDie
  by_cases h : aget g.board q.pos = some q <;>
    by_cases h2 : q.kind = Kind.king ∧ q.hasKingHandler = true <;>
      simp [h, h2]

/-- Piece.die records the dying piece in the ghost graveyard. -/
theorem pieceDie_graveyard (g : Game) (q : Piece) :
    (pieceDie g q).graveyard = g.graveyard ++ [q.id] := by
  unfold pieceDie
  by_cases h : aget g.board q.pos = some q <;>
    by_cases h2 : q.kind = Kind.king ∧ q.hasKingHandler = true <;>
      simp [h, h2]

/-- Piece.die fires the king-captured callback exactly when the dying piece
is a King with the handler installed. -/
theorem pieceDie_events (g : Game) (q : Piece) :
    (pieceDie g q).events =
      if q.kind = Kind.king ∧ q.hasKingHandler = true
      then g.events ++ [q.player] else g.events := by
  unfold pieceDie
  by_cases h : aget g.board q.pos = some q <;>
    by_cases h2 : q.kind = Kind.king ∧ q.hasKingHandler = true <;>
      simp [h, h2]

/-- Piece.move does not create pieces. -/
theorem baseMoveCore_nextId (g : Game) (p : Piece) (pos : Coord) :
    (baseMoveCore g p pos).nextId = g.nextId := by
  unfold baseMoveCore
  cases hv : aget (adel g.board p.pos) pos with
  | none => simp [hv]
  | some victim => simp [hv, pieceDie_nextId]

/-- Piece.move starts the shared per-player cooldown. -/
theorem baseMoveCore_playerFreeze (g : Game) (p : Piece) (pos : Coord) :
    (baseMoveCore g p pos).playerFreeze =
      aset g.playerFreeze p.player (g.counter + playerFreezeTime) := by
  unfold baseMoveCore
  cases hv : aget (adel g.board p.pos) pos with
  | none => simp [hv]
  | some victim => simp [hv, pieceDie_playerFreeze]

/-- A successful Pawn.move is a Piece.move followed, on the terminal rank, by
the promotion. -/
theorem pawnMoveF_ok {g g' : Game} {p : Piece} {pos : Coord}
    (hmv : pawnMoveF g p pos = (g', MoveOut.ok)) :
    baseMove g p pos = (baseMoveCore g p pos, MoveOut.ok) ∧
      aget g.board p.pos = some p ∧ pos ∈ movesF g p ∧
      g' = (if (p.player % 2 = 0 ∧ pos.2 = 7) ∨ (p.player % 2 = 1 ∧ pos.2 = 0)
        then promoteCore (baseMoveCore g p pos) p (movedPiece g p pos) pos
        else baseMoveCore g p pos) := by
  unfold pawnMoveF at hmv
  rcases baseMove_cases g p pos with h | h | ⟨h, hsrc, hmem⟩ <;> rw [h] at hmv
  · exact absurd hmv (by simp)
  · exact absurd hmv (by simp)
  · refine ⟨h, hsrc, hmem, ?_⟩
    have hmv2 : (if (p.player % 2 = 0 ∧ pos.2 = 7) ∨ (p.player % 2 = 1 ∧ pos.2 = 0) then
        match aget (baseMoveCore g p pos).board pos with
        | some moved => (promoteCore (baseMoveCore g p pos) p moved pos, MoveOut.ok)
        | none => (baseMoveCore g p pos, MoveOut.ok)
      else (baseMoveCore g p pos, MoveOut.ok)) = (g', MoveOut.ok) := hmv
    rw [baseMoveCore_board_at] at hmv2
    by_cases hterm : (p.player % 2 = 0 ∧ pos.2 = 7) ∨ (p.player % 2 = 1 ∧ pos.2 = 0)
    · rw [if_pos hterm]
      rw [if_pos hterm] at hmv2
      have h2 := congrArg Prod.fst hmv2
      exact h2.symm
    · rw [if_neg hterm]
      rw [if_neg hterm] at hmv2
      have h2 := congrArg Prod.fst hmv2
      exact h2.symm

/-- C7 (amended from nothing: as stated): a Pawn whose move reaches its
terminal rank is removed and replaced at that square by a Queen owned by the
same player, whose freeze threshold is the current tick plus egg_time; the
original Pawn's identity appears nowhere on the resulting board. -/
theorem c7_promotion {g g' : Game} {p : Piece} {pos : Coord} (hwf : WF g)
    (hmv : pawnMoveF g p pos = (g', MoveOut.ok))
    (hterm : (p.player % 2 = 0 ∧ pos.2 = 7) ∨ (p.player % 2 = 1 ∧ pos.2 = 0)) :
    ∃ q : Piece, aget g'.board pos = some q ∧ q.kind = Kind.queen ∧
      q.player = p.player ∧ q.freezeUntil = g.counter + eggTime ∧
      p.id ∉ bids g'.board := by
  obtain ⟨hbm, hsrc, hmem, hg'⟩ := pawnMoveF_ok hmv
  rw [if_pos hterm] at hg'
  subst hg'
  have hwf1 : WF (baseMoveCore g p pos) := WF_baseMoveCore pos hwf hsrc
  have hat : aget (baseMoveCore g p pos).board pos = some (movedPiece g p pos) :=
    baseMoveCore_board_at g p pos
  have hgone : p.id ∉ bids (adel (baseMoveCore g p pos).board pos) := by
    have h1 := id_gone_after_adel hwf1.2.1 hat
    exact h1
  have hdb : (pieceDie (baseMoveCore g p pos) (movedPiece g p pos)).board =
      adel (baseMoveCore g p pos).board pos := by
    rw [pieceDie_board]
    rw [if_pos (show aget (baseMoveCore g p pos).board (movedPiece g p pos).pos =
      some (movedPiece g p pos) from hat)]
    rfl
  have hdn := pieceDie_nextId (baseMoveCore g p pos) (movedPiece g p pos)
  have hdc := pieceDie_counter (baseMoveCore g p pos) (movedPiece g p pos)
  refine ⟨{ id := (pieceDie (baseMoveCore g p pos) (movedPiece g p pos)).nextId,
            kind := Kind.queen, player := p.player, pos := pos,
            freezeUntil := (pieceDie (baseMoveCore g p pos)
              (movedPiece g p pos)).counter + eggTime,
            lastMoveTime := none, lastPos := none, hasKingHandler := false },
      ?_, rfl, rfl, ?_, ?_⟩
  · exact aget_aset_self _ _ _
  · show (pieceDie (baseMoveCore g p pos) (movedPiece g p pos)).counter + eggTime =
      g.counter + eggTime
    rw [hdc, baseMoveCore_counter]
  · intro hmemid
    have hmemid2 : p.id ∈ bids (aset
        (pieceDie (baseMoveCore g p pos) (movedPiece g p pos)).board pos
        { id := (pieceDie (baseMoveCore g p pos) (movedPiece g p pos)).nextId,
          kind := Kind.queen, player := p.player, pos := pos,
          freezeUntil := (pieceDie (baseMoveCore g p pos)
            (movedPiece g p pos)).counter + eggTime,
          lastMoveTime := none, lastPos := none, hasKingHandler := false }) := hmemid
    rw [bids_aset] at hmemid2
    rcases List.mem_cons.1 hmemid2 with h1 | h2
    · have hplt : p.id < g.nextId := hwf.2.2.2 (p.pos, p) (aget_mem hsrc)
      have hqid : p.id = g.nextId := by
        have h3 : p.id = (pieceDie (baseMoveCore g p pos) (movedPiece g p pos)).nextId := h1
        rw [h3, hdn, baseMoveCore_nextId]
      omega
    · rw [hdb] at h2
      exact hgone (mem_bids_adel h2)

/-- The pawn of the C7 witness. -/
def c7WitPawn : Piece :=
  { id := 0, kind := Kind.pawn, player := 0, pos := (4, 6), freezeUntil := 0,
    lastMoveTime := none, lastPos := none, hasKingHandler := false }

/-- A board with a single white pawn one step from the terminal rank. -/
def c7WitState : Game := { newGame with board := [((4, 6), c7WitPawn)], nextId := 1 }

/-- Witness for C7 at a concrete promotion. -/
theorem c7_witness :
    ∃ q : Piece, aget (pawnMoveF c7WitState c7WitPawn (4, 7)).1.board (4, 7) = some q ∧
      q.kind = Kind.queen ∧ q.player = c7WitPawn.player ∧
      q.freezeUntil = c7WitState.counter + eggTime ∧
      c7WitPawn.id ∉ bids (pawnMoveF c7WitState c7WitPawn (4, 7)).1.board :=
  c7_promotion (by unfold WF posC; decide) (by decide) (by decide)

/-- A successful Piece.move is the move mutation. -/
theorem baseMove_ok {g g' : Game} {p : Piece} {pos : Coord}
    (hmv : baseMove g p pos = (g', MoveOut.ok)) :
    g' = baseMoveCore g p pos ∧ aget g.board p.pos = some p ∧ pos ∈ movesF g p := by
  rcases baseMove_cases g p pos with h | h | ⟨h, hsrc, hmem⟩ <;> rw [h] at hmv
  · exact absurd hmv (by simp)
  · exact absurd hmv (by simp)
  · have h2 := congrArg Prod.fst hmv
    exact ⟨h2.symm, hsrc, hmem⟩

/-- C6 (amended): a piece that moves through Piece.move at tick T yields no
moves at any tick of `[T, T+freeze_time)`; every piece of the same player
yields no moves at any tick of `[T, T+player_freeze_time)`; and in general a
piece yields zero moves whenever either its per-piece or its player's shared
cooldown is active. (The castling branch of King.move stamps no cooldowns;
see the counterexample.) -/
theorem c6_cooldown_gating {g g' : Game} {p : Piece} {pos : Coord}
    (hmv : baseMove g p pos = (g', MoveOut.ok)) :
    (∀ (t : Nat) (q : Piece), aget g'.board pos = some q →
        g.counter ≤ t → t < g.counter + freezeTime p.kind →
        movesF { g' with counter := t } q = [])
    ∧ (∀ (t : Nat) (q : Piece), q.player = p.player →
        g.counter ≤ t → t < g.counter + playerFreezeTime →
        movesF { g' with counter := t } q = [])
    ∧ (∀ (h : Game) (q : Piece),
        h.counter < q.freezeUntil ∨
          h.counter < (aget h.playerFreeze q.player).getD 0 →
        movesF h q = []) := by
  obtain ⟨hg', hsrc, hmem⟩ := baseMove_ok hmv
  subst hg'
  refine ⟨?_, ?_, ?_⟩
  · intro t q hq hle hlt
    rw [baseMoveCore_board_at] at hq
    injection hq with hq
    subst hq
    unfold movesF
    rw [if_pos ?_]
    show t < max (movedPiece g p pos).freezeUntil _
    exact lt_max_of_lt_left (show t < g.counter + freezeTime p.kind from hlt)
  · intro t q hpl hle hlt
    unfold movesF
    rw [if_pos ?_]
    show t < max q.freezeUntil
      ((aget (baseMoveCore g p pos).playerFreeze q.player).getD 0)
    rw [baseMoveCore_playerFreeze, hpl, aget_aset_self]
    exact lt_max_of_lt_right hlt
  · intro h q hc
    unfold movesF
    rcases hc with hc | hc
    · rw [if_pos (lt_max_of_lt_left hc)]
    · rw [if_pos (lt_max_of_lt_right hc)]

/-- The king of the C6 counterexample: unmoved, unfrozen, at e1. -/
def c6King : Piece :=
  { id := 0, kind := Kind.king, player := 0, pos := (4, 0), freezeUntil := 0,
    lastMoveTime := none, lastPos := none, hasKingHandler := false }

/-- The king after the castling move of the C6 counterexample. -/
def c6King1 : Piece := { c6King with pos := (6, 0) }

/-- The board of the C6 counterexample: unmoved king at e1, unmoved rook at
h1, empty squares between. -/
def c6CexState : Game :=
  { newGame with
      board := [((4, 0), c6King),
                ((7, 0), { id := 1, kind := Kind.rook, player := 0, pos := (7, 0),
                           freezeUntil := 0, lastMoveTime := none, lastPos := none,
                           hasKingHandler := false })]
      nextId := 2 }

/-- Counterexample to C6 as stated: the King moves (castles) at tick 0, yet at
tick 0 — inside `[T, T+freeze_time)` — its moves() is nonempty, because the
castling branch of King.move stamps neither cooldown. -/
theorem c6_counterexample :
    (doMove c6CexState c6King (6, 0)).2 = MoveOut.ok
    ∧ aget (doMove c6CexState c6King (6, 0)).1.board (6, 0) = some c6King1
    ∧ c6CexState.counter = 0
    ∧ freezeTime c6King.kind = 60
    ∧ movesF (doMove c6CexState c6King (6, 0)).1 c6King1 ≠ [] := by
  decide

/-- The rook of the C6 witness. -/
def c6WitRook : Piece :=
  { id := 0, kind := Kind.rook, player := 0, pos := (0, 0), freezeUntil := 0,
    lastMoveTime := none, lastPos := none, hasKingHandler := false }

/-- A board with a single rook for the C6 witness. -/
def c6WitState : Game := { newGame with board := [((0, 0), c6WitRook)], nextId := 1 }

/-- The rook after its move in the C6 witness. -/
def c6WitMoved : Piece :=
  { id := 0, kind := Kind.rook, player := 0, pos := (0, 5), freezeUntil := 80,
    lastMoveTime := some 0, lastPos := some (0, 0), hasKingHandler := false }

/-- Witness for C6 at a concrete move: the moved rook is frozen at tick 10. -/
theorem c6_witness :
    movesF { (baseMove c6WitState c6WitRook (0, 5)).1 with counter := 10 }
      c6WitMoved = [] :=
  (c6_cooldown_gating (show baseMove c6WitState c6WitRook (0, 5) =
      ((baseMove c6WitState c6WitRook (0, 5)).1, MoveOut.ok) from by decide)).1
    10 c6WitMoved (by decide) (by decide) (by decide)

/-- Piece.move silently rejects a destination outside the current move set. -/
theorem baseMove_rejects {g : Game} {p : Piece} {pos : Coord}
    (hsrc : aget g.board p.pos = some p) (hnm : pos ∉ movesF g p) :
    baseMove g p pos = (g, MoveOut.fail) := by
  simp [baseMove, hsrc, hnm]

/-- The silent-rejection half of the C4 analysis: empty source, or occupant
whose move set lacks the destination (and, for a King, a destination at most
one file away), is a complete no-op of the move action. -/
theorem c4_noop {g : Game} {src dst : Coord} {i : Nat}
    (hst : g.started = true) (hpc : posC g.board)
    (hking : ∀ p : Piece, aget g.board src = some p → p.kind = Kind.king →
      (dst.1 - p.pos.1).natAbs ≤ 1)
    (hnm : ∀ p : Piece, aget g.board src = some p → dst ∉ movesF g p) :
    actionMove g src dst = (g, false) ∧ execAct g i (Act.move src dst) = g := by
  have h1 : actionMove g src dst = (g, false) := by
    unfold actionMove
    rw [if_neg (by simp [hst])]
    cases hp : aget g.board src with
    | none => rfl
    | some p =>
      have hppos : p.pos = src := hpc _ (aget_mem hp)
      have hsrc' : aget g.board p.pos = some p := by
        rw [hppos]
        exact hp
      have hrej : baseMove g p dst = (g, MoveOut.fail) :=
        baseMove_rejects hsrc' (hnm p hp)
      have hdm : doMove g p dst = (g, MoveOut.fail) := by
        cases hk : p.kind
        case king =>
          rw [show doMove g p dst = kingMoveF g p dst from by simp [doMove, hk]]
          unfold kingMoveF
          rw [if_pos (hking p hp hk), hrej]
        case pawn =>
          rw [show doMove g p dst = pawnMoveF g p dst from by simp [doMove, hk]]
          unfold pawnMoveF
          rw [hrej]
        case rook =>
          rw [show doMove g p dst = baseMove g p dst from by simp [doMove, hk]]
          exact hrej
        case bishop =>
          rw [show doMove g p dst = baseMove g p dst from by simp [doMove, hk]]
          exact hrej
        case queen =>
          rw [show doMove g p dst = baseMove g p dst from by simp [doMove, hk]]
          exact hrej
        case knight =>
          rw [show doMove g p dst = baseMove g p dst from by simp [doMove, hk]]
          exact hrej
      show (match doMove g p dst with
        | (g2, MoveOut.err) => (g2, true)
        | (g2, _) => (g2, false)) = (g, false)
      rw [hdm]
  refine ⟨h1, ?_⟩
  show execKnown g i (Act.move src dst) = g
  have h3 : (match actionMove g src dst with
      | (g2, true) => addMsg g2 ("action " ++ actName (Act.move src dst) ++ " failed")
      | (g2, false) => g2) = g := by
    rw [h1]
  exact h3

/-- C4 (amended): in a started session a move action with an empty source
square or a destination outside the occupant's current move set is rejected,
in two shapes. For a non-King occupant — or a King asked to move at most one
file — the rejection is a silent complete no-op: no state change, no
message, no error. For a King asked to move two or more files off its rank,
King.move's rank assertion raises; the scheduler catches the exception and
appends the 'action move failed' message, leaving everything else untouched.
(A King asked to move two or more files along its rank is the
castling-shaped case, executed without consulting moves(); see the
counterexample.) -/
theorem c4_stale_move_rejected :
    (∀ (g : Game) (src dst : Coord) (i : Nat), g.started = true → posC g.board →
      (∀ p : Piece, aget g.board src = some p → p.kind = Kind.king →
        (dst.1 - p.pos.1).natAbs ≤ 1) →
      (∀ p : Piece, aget g.board src = some p → dst ∉ movesF g p) →
      actionMove g src dst = (g, false) ∧ execAct g i (Act.move src dst) = g)
    ∧
    (∀ (g : Game) (src dst : Coord) (i : Nat) (p : Piece), g.started = true →
      aget g.board src = some p → p.kind = Kind.king →
      2 ≤ (dst.1 - p.pos.1).natAbs → dst.2 ≠ p.pos.2 →
      actionMove g src dst = (g, true) ∧
      execAct g i (Act.move src dst) = addMsg g "action move failed") := by
  constructor
  · intro g src dst i hst hpc hking hnm
    exact c4_noop hst hpc hking hnm
  · intro g src dst i p hst hp hk h2 hy
    have hdm : doMove g p dst = (g, MoveOut.err) := by
      rw [show doMove g p dst = kingMoveF g p dst from by simp [doMove, hk]]
      unfold kingMoveF
      rw [if_neg (by omega), if_pos hy]
    have h1 : actionMove g src dst = (g, true) := by
      unfold actionMove
      rw [if_neg (by simp [hst]), hp]
      show (match doMove g p dst with
        | (g2, MoveOut.err) => (g2, true)
        | (g2, _) => (g2, false)) = (g, true)
      rw [hdm]
    refine ⟨h1, ?_⟩
    show execKnown g i (Act.move src dst) = addMsg g "action move failed"
    have h3 : (match actionMove g src dst with
        | (g2, true) => addMsg g2 ("action " ++ actName (Act.move src dst) ++ " failed")
        | (g2, false) => g2) = addMsg g "action move failed" := by
      rw [h1]
      rfl
    exact h3

/-- The frozen king of the C4 counterexample. -/
def c4King : Piece :=
  { id := 0, kind := Kind.king, player := 0, pos := (4, 0), freezeUntil := 100,
    lastMoveTime := none, lastPos := none, hasKingHandler := false }

/-- A started session with a frozen king whose castling rook is in place. -/
def c4CexState : Game :=
  { newGame with
      started := true
      board := [((4, 0), c4King),
                ((7, 0), { id := 1, kind := Kind.rook, player := 0, pos := (7, 0),
                           freezeUntil := 0, lastMoveTime := none, lastPos := none,
                           hasKingHandler := false })]
      nextId := 2 }

/-- Counterexample to C4 as stated: the frozen King's moves() is empty, so a
move to (6,0) must be rejected as a no-op, yet applying the move action
through the Action Log changes the state (the castling branch of King.move
never consults moves()). -/
theorem c4_counterexample :
    c4CexState.started = true
    ∧ aget c4CexState.board (4, 0) = some c4King
    ∧ (6, 0) ∉ movesF c4CexState c4King
    ∧ execAct c4CexState 0 (Act.move (4, 0) (6, 0)) ≠ c4CexState := by
  decide

/-- The frozen rook of the C4 witness. -/
def c4WitRook : Piece :=
  { id := 0, kind := Kind.rook, player := 0, pos := (0, 0), freezeUntil := 50,
    lastMoveTime := none, lastPos := none, hasKingHandler := false }

/-- A started session with a single frozen rook. -/
def c4WitState : Game :=
  { newGame with started := true, board := [((0, 0), c4WitRook)], nextId := 1 }

/-- Witness for C4 at concrete moves: a frozen rook's stale move is a
complete no-op, and a King sent two files off its rank leaves exactly the
failure message. -/
theorem c4_witness :
    (actionMove c4WitState (0, 0) (0, 5) = (c4WitState, false)
      ∧ execAct c4WitState 0 (Act.move (0, 0) (0, 5)) = c4WitState)
    ∧ (actionMove c4CexState (4, 0) (6, 3) = (c4CexState, true)
      ∧ execAct c4CexState 0 (Act.move (4, 0) (6, 3)) =
          addMsg c4CexState "action move failed") := by
  constructor
  · exact c4_stale_move_rejected.1 c4WitState (0, 0) (0, 5) 0 (by decide)
      (by unfold posC; decide)
      (fun p hp hk => by
        injection hp with h
        rw [← h] at hk
        exact absurd hk (by decide))
      (fun p hp => by
        injection hp with h
        rw [← h]
        decide)
  · exact c4_stale_move_rejected.2 c4CexState (4, 0) (6, 3) 0 c4King (by decide)
      (by decide) rfl (by decide) (by decide)

/-- When Piece.move captures, the occupant dies: the resulting board is the
destination square cleared of the victim and given to the mover. -/
theorem baseMoveCore_capture_board {g : Game} {p victim : Piece} {pos : Coord}
    (hvpos : victim.pos = pos)
    (hvic : aget (adel g.board p.pos) pos = some victim) :
    (baseMoveCore g p pos).board =
      aset (adel (adel g.board p.pos) pos) pos (movedPiece g p pos) := by
  unfold baseMoveCore
  cases hv : aget (adel g.board p.pos) pos with
  | none =>
    rw [hv] at hvic
    exact absurd hvic (by simp)
  | some v =>
    rw [hv] at hvic
    injection hvic with hveq
    subst hveq
    have hv2 : aget { g with board := adel g.board p.pos }.board v.pos = some v := by
      rw [hvpos]
      exact hv
    have hdb : (pieceDie { g with board := adel g.board p.pos } v).board =
        adel (adel g.board p.pos) pos := by
      rw [pieceDie_board, if_pos hv2, hvpos]
    simp [hv, hdb]

/-- When Piece.move captures, the victim is logged in the ghost graveyard. -/
theorem baseMoveCore_capture_graveyard {g : Game} {p victim : Piece} {pos : Coord}
    (hvic : aget (adel g.board p.pos) pos = some victim) :
    (baseMoveCore g p pos).graveyard = g.graveyard ++ [victim.id] := by
  unfold baseMoveCore
  cases hv : aget (adel g.board p.pos) pos with
  | none =>
    rw [hv] at hvic
    exact absurd hvic (by simp)
  | some v =>
    rw [hv] at hvic
    injection hvic with hveq
    subst hveq
    simp [hv, pieceDie_graveyard]

/-- When Piece.move captures, the king-captured callback fires exactly when
the victim is a King with the handler installed. -/
theorem baseMoveCore_capture_events {g : Game} {p victim : Piece} {pos : Coord}
    (hvic : aget (adel g.board p.pos) pos = some victim) :
    (baseMoveCore g p pos).events =
      if victim.kind = Kind.king ∧ victim.hasKingHandler = true
      then g.events ++ [victim.player] else g.events := by
  unfold baseMoveCore
  cases hv : aget (adel g.board p.pos) pos with
  | none =>
    rw [hv] at hvic
    exact absurd hvic (by simp)
  | some v =>
    rw [hv] at hvic
    injection hvic with hveq
    subst hveq
    simp [hv, pieceDie_events]

/-- Folding a property-preserving step preserves the property. -/
theorem pres_foldl {α : Type} {P : Game → Prop} {f : Game → α → Game}
    (hf : ∀ (g : Game) (a : α), P g → P (f g a)) :
    ∀ (l : List α) (g : Game), P g → P (l.foldl f g) := by
  intro l
  induction l with
  | nil => exact fun g h => h
  | cons a t ih => exact fun g h => ih _ (hf g a h)

/-- Every king on a board built by GameModel.init carries the handler. -/
def KH (g : Game) : Prop :=
  ∀ e ∈ g.board, e.2.kind = Kind.king → e.2.hasKingHandler = true

/-- Creation preserves the handler property when kings get the handler. -/
theorem KH_spawn {g : Game} {k : Kind} {who : Nat} {pos : Coord} {handler : Bool}
    (hk : k = Kind.king → handler = true) (h : KH g) :
    KH (spawn g k who pos handler) := by
  intro e he
  rcases List.mem_cons.1 he with rfl | h2
  · exact hk
  · exact h e ((adel_sublist g.board pos).mem h2)

/-- Armies built with the handler flag give every king the handler. -/
theorem KH_buildArmy (who : Nat) (x y0 y1 : Int) {g : Game} (h : KH g) :
    KH (buildArmy true g who x y0 y1) := by
  unfold buildArmy
  have hstep : ∀ (g : Game) (e : Nat × Kind), KH g →
      KH (spawn (spawn g e.2 who (x + (e.1 : Int), y0) (true && (e.2 == Kind.king)))
        Kind.pawn who (x + (e.1 : Int), y1) false) := by
    intro g e hg
    refine KH_spawn (fun hcc => absurd hcc (by decide)) (KH_spawn ?_ hg)
    intro hk
    rw [hk]
    rfl
  exact pres_foldl hstep _ g h

/-- GameModel.init installs the king-captured handler on every King. -/
theorem KH_gmInit (nb : Nat) : KH (gmInit nb) := by
  have hin : KH (initBoardWith true newGame nb) := by
    unfold initBoardWith
    have hstep : ∀ (g : Game) (e : Nat × (Int × Int × Int)), KH g →
        KH (buildArmy true g e.1 e.2.1 e.2.2.1 e.2.2.2) :=
      fun g e h => KH_buildArmy e.1 e.2.1 e.2.2.1 e.2.2.2 h
    refine pres_foldl hstep _ _ ?_
    intro e he
    exact absurd he (List.not_mem_nil e)
  intro e he
  exact hin e he

/-- C5 (amended): a move onto an occupied square captures the occupant — its
identity leaves the board and it is logged dead — and when the victim is a
King carrying the `on_die` handler the king-captured callback fires with the
owning player's index; GameModel.init installs that handler on every King it
creates (main.py's init_board installs none, see the counterexample). -/
theorem c5_capture_callback {g g' : Game} {p victim : Piece} {pos : Coord}
    (hwf : WF g) (hmv : baseMove g p pos = (g', MoveOut.ok))
    (hvic : aget g.board pos = some victim) (hne : pos ≠ p.pos) :
    victim.id ∉ bids g'.board
    ∧ victim.id ∈ g'.graveyard
    ∧ (victim.kind = Kind.king ∧ victim.hasKingHandler = true →
        g'.events = g.events ++ [victim.player])
    ∧ ∀ (nb : Nat) (e : Coord × Piece), e ∈ (gmInit nb).board →
        e.2.kind = Kind.king → e.2.hasKingHandler = true := by
  obtain ⟨hg', hsrc, hmem⟩ := baseMove_ok hmv
  subst hg'
  have hvpos : victim.pos = pos := posC_aget hwf.2.2.1 hvic
  have hvic' : aget (adel g.board p.pos) pos = some victim := by
    rw [aget_adel_ne _ hne]
    exact hvic
  have hb := baseMoveCore_capture_board hvpos hvic'
  refine ⟨?_, ?_, ?_, ?_⟩
  · rw [hb, bids_aset]
    intro hmemid
    rcases List.mem_cons.1 hmemid with h1 | h2
    · have h3 : victim.id = p.id := h1
      have hee := entry_eq_of_id_eq hwf.2.1 (aget_mem hvic) (aget_mem hsrc) h3
      injection hee with h4 h5
      exact hne h4
    · have h6 : victim.id ∉ bids (adel (adel g.board p.pos) pos) :=
        id_gone_after_adel (bids_nodup_adel _ hwf.2.1) hvic'
      exact h6 (mem_bids_adel h2)
  · rw [baseMoveCore_capture_graveyard hvic']
    simp
  · intro hkh
    rw [baseMoveCore_capture_events hvic', if_pos hkh]
  · intro nb e he hk
    exact KH_gmInit nb e he hk

/-- The capturing queen of the C5 counterexample. -/
def c5Queen : Piece :=
  { id := 0, kind := Kind.queen, player := 0, pos := (4, 4), freezeUntil := 0,
    lastMoveTime := none, lastPos := none, hasKingHandler := false }

/-- The captured king of the C5 counterexample: no handler installed, as for
every piece created by main.py's init_board. -/
def c5KingB : Piece :=
  { id := 1, kind := Kind.king, player := 1, pos := (4, 6), freezeUntil := 0,
    lastMoveTime := none, lastPos := none, hasKingHandler := false }

/-- The board of the C5 counterexample. -/
def c5CexState : Game :=
  { newGame with
      counter := 100
      board := [((4, 4), c5Queen), ((4, 6), c5KingB)]
      nextId := 2 }

/-- Counterexample to C5 as stated: a King without the handler — exactly what
main.py's init_board produces — is captured and no king-captured notification
fires. -/
theorem c5_counterexample :
    aget c5CexState.board (4, 6) = some c5KingB
    ∧ c5KingB.kind = Kind.king
    ∧ (doMove c5CexState c5Queen (4, 6)).2 = MoveOut.ok
    ∧ c5KingB.id ∉ bids (doMove c5CexState c5Queen (4, 6)).1.board
    ∧ (doMove c5CexState c5Queen (4, 6)).1.events = []
    ∧ ((aget (mainInitBoard newGame 1).board (4, 0)).map
        (fun q => (q.kind, q.hasKingHandler))) = some (Kind.king, false) := by
  decide

/-- The capturing queen of the C5 witness. -/
def c5WitQueen : Piece :=
  { id := 0, kind := Kind.queen, player := 0, pos := (4, 4), freezeUntil := 0,
    lastMoveTime := none, lastPos := none, hasKingHandler := false }

/-- The captured king of the C5 witness, carrying the GameModel.init handler. -/
def c5WitKing : Piece :=
  { id := 1, kind := Kind.king, player := 1, pos := (4, 6), freezeUntil := 0,
    lastMoveTime := none, lastPos := none, hasKingHandler := true }

/-- The board of the C5 witness. -/
def c5WitState : Game :=
  { newGame with
      counter := 100
      board := [((4, 4), c5WitQueen), ((4, 6), c5WitKing)]
      nextId := 2 }

/-- Witness for C5 at a concrete capture of a handler-carrying king. -/
theorem c5_witness :
    c5WitKing.id ∉ bids (baseMove c5WitState c5WitQueen (4, 6)).1.board
    ∧ c5WitKing.id ∈ (baseMove c5WitState c5WitQueen (4, 6)).1.graveyard
    ∧ (c5WitKing.kind = Kind.king ∧ c5WitKing.hasKingHandler = true →
        (baseMove c5WitState c5WitQueen (4, 6)).1.events =
          c5WitState.events ++ [c5WitKing.player])
    ∧ ∀ (nb : Nat) (e : Coord × Piece), e ∈ (gmInit nb).board →
        e.2.kind = Kind.king → e.2.hasKingHandler = true :=
  c5_capture_callback (by unfold WF posC; decide)
    (show baseMove c5WitState c5WitQueen (4, 6) =
      ((baseMove c5WitState c5WitQueen (4, 6)).1, MoveOut.ok) from by decide)
    (by decide) (by decide)

/-- C8 (amended): each call of communicate sends to every known peer exactly
one copy of the same packet: the sender id with, for every tick_index in
`[max(0, tick_counter-latency), tick_counter+latency)` — a half-open window
of 2×latency ticks once past startup — the sender's own recorded actions for
that tick (empty when none recorded). -/
theorem c8_packet_window (g : Game) :
    sends g = g.peers.map (fun pr => (pr, packet g))
    ∧ (sends g).length = g.peers.length
    ∧ (∀ pr ∈ g.peers, (pr, packet g) ∈ sends g)
    ∧ (packet g).1 = g.id
    ∧ (packet g).2.map Prod.fst =
        List.range' (g.counter - latency) ((g.counter + latency) - (g.counter - latency))
    ∧ (latency ≤ g.counter → (packet g).2.length = 2 * latency)
    ∧ ∀ e ∈ (packet g).2,
        e.2 = (aget ((aget g.iterActions e.1).getD []) g.id).getD [] := by
  refine ⟨rfl, ?_, ?_, rfl, ?_, ?_, ?_⟩
  · exact List.length_map g.peers _
  · intro pr hpr
    exact List.mem_map.2 ⟨pr, hpr, rfl⟩
  · show ((windowTicks g).map (fun i =>
      (i, (aget ((aget g.iterActions i).getD []) g.id).getD []))).map Prod.fst = _
    rw [List.map_map]
    exact List.map_id' (windowTicks g)
  · intro hc
    show ((windowTicks g).map _).length = 2 * latency
    rw [List.length_map]
    unfold windowTicks
    rw [List.length_range']
    omega
  · intro e he
    obtain ⟨i, hi, hei⟩ := List.mem_map.1 he
    rw [← hei]

/-- Witness for C8 at a concrete state past the startup grace. -/
theorem c8_witness :
    (packet { newGame with counter := 9, peers := [3] }).2.length = 2 * latency
    ∧ (sends { newGame with counter := 9, peers := [3] }).length =
        ({ newGame with counter := 9, peers := [3] } : Game).peers.length :=
  ⟨(c8_packet_window { newGame with counter := 9, peers := [3] }).2.2.2.2.2.1 (by decide),
   (c8_packet_window { newGame with counter := 9, peers := [3] }).2.1⟩

/-- Counterexample to C8 as stated: at tick 5 with latency 5 the packet's
window is the ticks 0..9 — 2×latency entries with an exclusive upper bound —
not the inclusive range through tick_counter+latency = 10. -/
theorem c8_counterexample :
    (packet { newGame with counter := 5 }).2.map Prod.fst ≠
      List.range' 0 (2 * latency + 1)
    ∧ (10 : Nat) ∉ (packet { newGame with counter := 5 }).2.map Prod.fst
    ∧ (packet { newGame with counter := 5 }).2.map Prod.fst =
        [0, 1, 2, 3, 4, 5, 6, 7, 8, 9] := by
  decide

/-- Characterization of a successful castling walk started at offset `s`: the
first occupied square along the direction holds the returned piece, an
unmoved rook more than two squares from the King, and every nearer square of
the walk is empty and in bounds. -/
theorem castlingAux_sound {b : Board} {W H x y : Int} {rk : Piece} {d : Int}
    (hd : d = 1 ∨ d = -1) :
    ∀ (fuel s : Nat), 1 ≤ s →
      castlingAux b W H x y d (x + (s : Int) * d) fuel = some rk →
      ∃ j : Nat, s ≤ j ∧ 2 < j ∧ aget b (x + (j : Int) * d, y) = some rk ∧
        rk.kind = Kind.rook ∧ rk.lastMoveTime = none ∧
        ∀ i : Nat, s ≤ i → i < j →
          aget b (x + (i : Int) * d, y) = none ∧ inB W H (x + (i : Int) * d, y) = true := by
  intro fuel
  induction fuel with
  | zero =>
    intro s hs h
    simp [castlingAux] at h
  | succ n ih =>
    intro s hs h
    rw [castlingAux] at h
    split at h
    · rename_i hib
      split at h
      · rename_i piece hq
        split at h
        · rename_i hcond
          injection h with h1
          subst h1
          refine ⟨s, le_refl s, ?_, hq, hcond.2.1, hcond.2.2, ?_⟩
          · have h2 : ((x + (s : Int) * d) - x).natAbs = s := by
              rcases hd with rfl | rfl
              · have he : (x + (s : Int) * 1) - x = (s : Int) := by ring
                rw [he, Int.natAbs_ofNat]
              · have he : (x + (s : Int) * (-1)) - x = -(s : Int) := by ring
                rw [he, Int.natAbs_neg, Int.natAbs_ofNat]
            have h3 := hcond.1
            omega
          · intro i hsi hij
            exact absurd hij (by omega)
        · exact absurd h (by simp)
      · rename_i hq
        have h2 : castlingAux b W H x y d (x + ((s + 1 : Nat) : Int) * d) n = some rk := by
          have he : (x + ((s + 1 : Nat) : Int) * d) = x + (s : Int) * d + d := by
            push_cast
            ring
          rw [he]
          exact h
        obtain ⟨j, hsj, h2j, hget, hk, hl, hemp⟩ := ih (s + 1) (by omega) h2
        refine ⟨j, by omega, h2j, hget, hk, hl, ?_⟩
        intro i hsi hij
        by_cases hi : i = s
        · subst hi
          exact ⟨hq, hib⟩
        · exact hemp i (by omega) hij
    · rename_i hib
      exact absurd h (by simp)

/-- Characterization of a successful King.castling: an unmoved rook is the
first piece along the rank, more than two squares away. -/
theorem castlingB_sound {b : Board} {W H x y : Int} {rk : Piece} {d : Int}
    (hd : d = 1 ∨ d = -1) (h : castlingB b W H x y d = some rk) :
    ∃ j : Nat, 2 < j ∧ aget b (x + (j : Int) * d, y) = some rk ∧
      rk.kind = Kind.rook ∧ rk.lastMoveTime = none ∧
      ∀ i : Nat, 1 ≤ i → i < j →
        aget b (x + (i : Int) * d, y) = none ∧ inB W H (x + (i : Int) * d, y) = true := by
  have h1 : castlingAux b W H x y d (x + ((1 : Nat) : Int) * d) (fuelWH W H + 1) =
      some rk := by
    have he : (x + ((1 : Nat) : Int) * d) = x + d := by
      push_cast
      ring
    rw [he]
    exact h
  obtain ⟨j, h1j, h2j, hget, hk, hl, hemp⟩ := castlingAux_sound hd _ 1 (le_refl 1) h1
  exact ⟨j, h2j, hget, hk, hl, fun i h1i hij => hemp i h1i hij⟩

/-- Lookup after assignment splits into the fresh entry or an untouched one. -/
theorem aget_aset_cases {κ β : Type} [DecidableEq κ] {l : List (κ × β)} {k c : κ}
    {v w : β} (h : aget (aset l k v) c = some w) :
    (c = k ∧ w = v) ∨ (c ≠ k ∧ aget l c = some w) := by
  by_cases hck : c = k
  · subst hck
    rw [aget_aset_self] at h
    injection h with h1
    exact Or.inl ⟨rfl, h1.symm⟩
  · rw [aget_aset_ne l v hck] at h
    exact Or.inr ⟨hck, h⟩

/-- A successful lookup survives undoing a deletion. -/
theorem aget_adel_some {κ β : Type} [DecidableEq κ] {l : List (κ × β)} {k c : κ}
    {v : β} (h : aget (adel l k) c = some v) : aget l c = some v := by
  by_cases hck : c = k
  · subst hck
    rw [aget_adel_self] at h
    exact absurd h (by simp)
  · rw [aget_adel_ne l hck] at h
    exact h

/-- Any piece found after Piece.die was already on the board before it. -/
theorem trace_pieceDie {g : Game} {v q : Piece} {c : Coord}
    (h : aget (pieceDie g v).board c = some q) : aget g.board c = some q := by
  rw [pieceDie_board] at h
  split at h
  · exact aget_adel_some h
  · exact h

/-- The board produced by the mutation part of Piece.move, spelled out. -/
theorem baseMoveCore_board (g : Game) (p : Piece) (pos : Coord) :
    (baseMoveCore g p pos).board =
      aset (match aget (adel g.board p.pos) pos with
            | some victim =>
                (pieceDie { g with board := adel g.board p.pos } victim).board
            | none => adel g.board p.pos) pos (movedPiece g p pos) := by
  cases hv : aget (adel g.board p.pos) pos <;> simp [baseMoveCore, hv]

/-- A piece found on the board after the mutation part of Piece.move with no
recorded last-move time is not the mover: it was already on the board. -/
theorem trace_baseMoveCore {g : Game} {p : Piece} {pos c : Coord} {q : Piece}
    (h : aget (baseMoveCore g p pos).board c = some q) (hq : q.lastMoveTime = none) :
    ∃ c₀, aget g.board c₀ = some q := by
  rw [baseMoveCore_board] at h
  rcases aget_aset_cases h with ⟨hck, hqv⟩ | ⟨hck, h3⟩
  · subst hqv
    simp [movedPiece] at hq
  · revert h3
    cases hv : aget (adel g.board p.pos) pos <;> intro h3
    · exact ⟨c, aget_adel_some h3⟩
    · exact ⟨c, aget_adel_some (trace_pieceDie h3)⟩

/-- A piece found after Piece.move with no recorded last-move time was already
on the board before the move. -/
theorem trace_baseMove {g : Game} {p : Piece} {pos c : Coord} {q : Piece}
    (h : aget (baseMove g p pos).1.board c = some q) (hq : q.lastMoveTime = none) :
    ∃ c₀, aget g.board c₀ = some q := by
  rw [baseMove] at h
  revert h
  cases hb : aget g.board p.pos with
  | none => intro h; exact ⟨c, h⟩
  | some r =>
    intro h
    have h2 : aget (if r ≠ p ∨ pos ∉ movesF g p then (g, MoveOut.fail)
        else (baseMoveCore g p pos, MoveOut.ok)).1.board c = some q := h
    by_cases hcond : r ≠ p ∨ pos ∉ movesF g p
    · rw [if_pos hcond] at h2
      exact ⟨c, h2⟩
    · rw [if_neg hcond] at h2
      exact trace_baseMoveCore h2 hq

/-- A King found after the promotion mutation is not the new Queen: it was
already on the board before promotion. -/
theorem trace_promoteCore {g1 : Game} {p moved : Piece} {pos c : Coord} {q : Piece}
    (h : aget (promoteCore g1 p moved pos).board c = some q)
    (hk : q.kind = Kind.king) : aget g1.board c = some q := by
  simp only [promoteCore] at h
  rcases aget_aset_cases h with ⟨hck, hqv⟩ | ⟨hck, h3⟩
  · subst hqv
    simp at hk
  · exact trace_pieceDie h3

/-- A King found with no recorded last-move time after the castling mutation
is either untouched or the castling King itself, whose last-move time the
mutation never writes: a King with the same identity, kind and empty last-move
time was already on the board. -/
theorem trace_castleCore {g : Game} {p rk : Piece} {pos c src : Coord} {d : Int}
    {q : Piece} (hp : aget g.board src = some p) (hrk : rk.kind = Kind.rook)
    (hq : aget (castleCore g p pos rk d).board c = some q) (hk : q.kind = Kind.king)
    (hnone : q.lastMoveTime = none) :
    ∃ (c₀ : Coord) (q₀ : Piece), aget g.board c₀ = some q₀ ∧ q₀.id = q.id ∧
      q₀.kind = Kind.king ∧ q₀.lastMoveTime = none := by
  simp only [castleCore] at hq
  rcases aget_aset_cases hq with ⟨h1, h2⟩ | ⟨h1, h2⟩
  · subst h2
    simp at hk
    rw [hrk] at hk
    exact absurd hk (by decide)
  · have h3 := aget_adel_some h2
    rcases aget_aset_cases h3 with ⟨h4, h5⟩ | ⟨h4, h5⟩
    · subst h5
      exact ⟨src, p, hp, rfl, hk, hnone⟩
    · exact ⟨c, q, aget_adel_some h5, rfl, hk, hnone⟩

/-- Executing the castling candidate two squares toward a Rook found by
King.castling: the move dispatch performs the castling mutation, which puts
the King on the destination and the Rook one square from the King's start,
in one mutation with no intermediate observable state. -/
theorem castle_exec {g : Game} {p rk : Piece} {d : Int} (hd : d = 1 ∨ d = -1)
    (hpc : posC g.board) (hpk : p.kind = Kind.king)
    (hc : castlingB g.board g.boardW g.boardH p.pos.1 p.pos.2 d = some rk) :
    doMove g p (p.pos.1 + 2 * d, p.pos.2) =
      (castleCore g p (p.pos.1 + 2 * d, p.pos.2) rk d, MoveOut.ok) ∧
    aget (castleCore g p (p.pos.1 + 2 * d, p.pos.2) rk d).board
        (p.pos.1 + 2 * d, p.pos.2) = some { p with pos := (p.pos.1 + 2 * d, p.pos.2) } ∧
    aget (castleCore g p (p.pos.1 + 2 * d, p.pos.2) rk d).board
        (p.pos.1 + d, p.pos.2) = some { rk with pos := (p.pos.1 + d, p.pos.2) } := by
  obtain ⟨j, h2j, hj, hrkk, hrkl, hemp⟩ := castlingB_sound hd hc
  have hrkpos : rk.pos = (p.pos.1 + (j : Int) * d, p.pos.2) := posC_aget hpc hj
  refine ⟨?_, ?_, ?_⟩
  · have hdir : (if p.pos.1 < (p.pos.1 + 2 * d, p.pos.2).1 then (1 : Int) else -1) = d := by
      rcases hd with rfl | rfl
      · rw [if_pos (by omega)]
      · rw [if_neg (by omega)]
    have h1 : ¬(((p.pos.1 + 2 * d, p.pos.2).1 - p.pos.1).natAbs ≤ 1) := by
      rcases hd with rfl | rfl
      · have he : (p.pos.1 + 2 * 1, p.pos.2).1 - p.pos.1 = 2 := by ring
        rw [he]
        decide
      · have he : (p.pos.1 + 2 * (-1), p.pos.2).1 - p.pos.1 = -2 := by ring
        rw [he]
        decide
    simp only [doMove, hpk]
    rw [kingMoveF, if_neg h1,
      if_neg (show ¬((p.pos.1 + 2 * d, p.pos.2).2 ≠ p.pos.2) from by simp), hdir, hc]
  · have hne1 : ((p.pos.1 + 2 * d : Int), p.pos.2) ≠ ((p.pos.1 + d : Int), p.pos.2) := by
      intro hcon
      rw [Prod.mk.injEq] at hcon
      rcases hd with rfl | rfl <;> omega
    have hne2 : ((p.pos.1 + 2 * d : Int), p.pos.2) ≠ rk.pos := by
      rw [hrkpos]
      intro hcon
      rw [Prod.mk.injEq] at hcon
      rcases hd with rfl | rfl <;> omega
    simp only [castleCore]
    rw [aget_aset_ne _ _ hne1, aget_adel_ne _ hne2, aget_aset_self]
  · simp only [castleCore]
    rw [aget_aset_self]

/-- After any single Rule-Engine move step, a King on the board whose
last-move time is still empty corresponds to a King of the same identity with
an empty last-move time already on the board before the step: no move step
creates castling availability. In particular the castling branch itself never
records a last-move time for the King, so availability survives castling. -/
theorem king_unmoved_trace {g : Game} {src dst c : Coord} {q : Piece}
    (hq : aget (moveStep g src dst).board c = some q) (hk : q.kind = Kind.king)
    (hnone : q.lastMoveTime = none) :
    ∃ (c₀ : Coord) (q₀ : Piece), aget g.board c₀ = some q₀ ∧ q₀.id = q.id ∧
      q₀.kind = Kind.king ∧ q₀.lastMoveTime = none := by
  rw [moveStep] at hq
  revert hq
  cases hp : aget g.board src with
  | none => intro hq; exact ⟨c, q, hq, rfl, hk, hnone⟩
  | some p =>
    intro hq
    have hq2 : aget (doMove g p dst).1.board c = some q := hq
    rw [doMove] at hq2
    revert hq2
    cases hkind : p.kind <;> intro hq2
    case rook | bishop | queen | knight =>
      obtain ⟨c₀, h3⟩ := trace_baseMove hq2 hnone
      exact ⟨c₀, q, h3, rfl, hk, hnone⟩
    case king =>
      rw [kingMoveF] at hq2
      by_cases h1 : (dst.1 - p.pos.1).natAbs ≤ 1
      · rw [if_pos h1] at hq2
        obtain ⟨c₀, h3⟩ := trace_baseMove hq2 hnone
        exact ⟨c₀, q, h3, rfl, hk, hnone⟩
      · rw [if_neg h1] at hq2
        by_cases h2 : dst.2 ≠ p.pos.2
        · rw [if_pos h2] at hq2
          exact ⟨c, q, hq2, rfl, hk, hnone⟩
        · rw [if_neg h2] at hq2
          revert hq2
          cases hcb : castlingB g.board g.boardW g.boardH p.pos.1 p.pos.2
              (if p.pos.1 < dst.1 then 1 else -1) <;> intro hq2
          · exact ⟨c, q, hq2, rfl, hk, hnone⟩
          · rename_i rk
            exact trace_castleCore hp (castlingB_rook hcb).1 hq2 hk hnone
    case pawn =>
      rw [pawnMoveF] at hq2
      revert hq2
      cases hbm : baseMove g p dst with
      | mk g1 out =>
        intro hq2
        cases out with
        | ok =>
          have hq3 : aget (if (p.player % 2 = 0 ∧ dst.2 = 7) ∨
              (p.player % 2 = 1 ∧ dst.2 = 0) then
                (match aget g1.board dst with
                 | some moved => (promoteCore g1 p moved dst, MoveOut.ok)
                 | none => (g1, MoveOut.ok))
              else (g1, MoveOut.ok)).1.board c = some q := hq2
          by_cases hpr : (p.player % 2 = 0 ∧ dst.2 = 7) ∨ (p.player % 2 = 1 ∧ dst.2 = 0)
          · rw [if_pos hpr] at hq3
            revert hq3
            cases hm : aget g1.board dst <;> intro hq3
            · obtain ⟨c₀, h3⟩ := trace_baseMove
                (show aget (baseMove g p dst).1.board c = some q by rw [hbm]; exact hq3) hnone
              exact ⟨c₀, q, h3, rfl, hk, hnone⟩
            · have h4 := trace_promoteCore hq3 hk
              obtain ⟨c₀, h3⟩ := trace_baseMove
                (show aget (baseMove g p dst).1.board c = some q by rw [hbm]; exact h4) hnone
              exact ⟨c₀, q, h3, rfl, hk, hnone⟩
          · rw [if_neg hpr] at hq3
            obtain ⟨c₀, h3⟩ := trace_baseMove
              (show aget (baseMove g p dst).1.board c = some q by rw [hbm]; exact hq3) hnone
            exact ⟨c₀, q, h3, rfl, hk, hnone⟩
        | fail =>
          have hq3 : aget g1.board c = some q := hq2
          obtain ⟨c₀, h3⟩ := trace_baseMove
            (show aget (baseMove g p dst).1.board c = some q by rw [hbm]; exact hq3) hnone
          exact ⟨c₀, q, h3, rfl, hk, hnone⟩
        | err =>
          have hq3 : aget g1.board c = some q := hq2
          obtain ⟨c₀, h3⟩ := trace_baseMove
            (show aget (baseMove g p dst).1.board c = some q by rw [hbm]; exact hq3) hnone
          exact ⟨c₀, q, h3, rfl, hk, hnone⟩

/-- A lone King on a wide board with two Rooks further along its rank, all
with empty last-move times; the second Rook belongs to the other player. -/
def c3King : Piece :=
  { id := 0, kind := Kind.king, player := 0, pos := (4, 0), freezeUntil := 0,
    lastMoveTime := none, lastPos := none, hasKingHandler := false }

def c3RookA : Piece :=
  { id := 1, kind := Kind.rook, player := 0, pos := (9, 0), freezeUntil := 0,
    lastMoveTime := none, lastPos := none, hasKingHandler := false }

def c3RookB : Piece :=
  { id := 2, kind := Kind.rook, player := 1, pos := (13, 0), freezeUntil := 0,
    lastMoveTime := none, lastPos := none, hasKingHandler := false }

def c3CexState : Game :=
  { newGame with
    started := true
    board := [((4, 0), c3King), ((9, 0), c3RookA), ((13, 0), c3RookB)]
    boardW := 16
    boardH := 8
    nextId := 3 }

/-- C3: castling as implemented. (i) The castling candidate is offered by
King._moves only while the King's last_move_time is empty: a King with a
recorded move yields only its neighbor streaks. (ii) King.castling succeeds
exactly by finding, as the first piece along the direction, an unmoved Rook
more than two squares away with every nearer square empty. (iii) Executing
the offered two-square destination performs the castling mutation atomically:
the King lands on the destination and the found Rook lands one square from
the King's start. (iv) However, no move step - castling included - ever
clears a surviving King's last_move_time, and the castling branch never sets
it: a King whose last_move_time is empty after a move step already had it
empty before, so castling does not consume castling availability. -/
theorem c3_castling :
    (∀ (b : Board) (W H : Int) (pos : Coord) (player : Nat) (t : Nat),
      streaksOf b W H Kind.king pos player (some t) = kingNeighborStreaks pos.1 pos.2)
    ∧
    (∀ (b : Board) (W H x y d : Int) (rk : Piece), d = 1 ∨ d = -1 →
      castlingB b W H x y d = some rk →
      ∃ j : Nat, 2 < j ∧ aget b (x + (j : Int) * d, y) = some rk ∧
        rk.kind = Kind.rook ∧ rk.lastMoveTime = none ∧
        ∀ i : Nat, 1 ≤ i → i < j → aget b (x + (i : Int) * d, y) = none)
    ∧
    (∀ (g : Game) (p rk : Piece) (d : Int), d = 1 ∨ d = -1 → posC g.board →
      p.kind = Kind.king →
      castlingB g.board g.boardW g.boardH p.pos.1 p.pos.2 d = some rk →
      doMove g p (p.pos.1 + 2 * d, p.pos.2) =
        (castleCore g p (p.pos.1 + 2 * d, p.pos.2) rk d, MoveOut.ok) ∧
      aget (castleCore g p (p.pos.1 + 2 * d, p.pos.2) rk d).board
          (p.pos.1 + 2 * d, p.pos.2) = some { p with pos := (p.pos.1 + 2 * d, p.pos.2) } ∧
      aget (castleCore g p (p.pos.1 + 2 * d, p.pos.2) rk d).board
          (p.pos.1 + d, p.pos.2) = some { rk with pos := (p.pos.1 + d, p.pos.2) })
    ∧
    (∀ (g : Game) (src dst c : Coord) (q : Piece),
      aget (moveStep g src dst).board c = some q → q.kind = Kind.king →
      q.lastMoveTime = none →
      ∃ (c₀ : Coord) (q₀ : Piece), aget g.board c₀ = some q₀ ∧ q₀.id = q.id ∧
        q₀.kind = Kind.king ∧ q₀.lastMoveTime = none) := by
  refine ⟨?_, ?_, ?_, ?_⟩
  · intro b W H pos player t
    simp [streaksOf]
  · intro b W H x y d rk hd hc
    obtain ⟨j, hj, hget, hk, hl, hemp⟩ := castlingB_sound hd hc
    exact ⟨j, hj, hget, hk, hl, fun i h1 h2 => (hemp i h1 h2).1⟩
  · intro g p rk d hd hpc hpk hc
    exact castle_exec hd hpc hpk hc
  · intro g src dst c q hq hk hn
    exact king_unmoved_trace hq hk hn

/-- A King that castles keeps its empty last_move_time (the castling branch
of King.move stamps nothing) and therefore castles a second time from its new
square - with the opponent's Rook, since King.castling checks the found
piece's type but never its owner. Castling availability is not permanently
removed by the King's castling move. -/
theorem c3_counterexample :
    (aget (moveStep c3CexState (4, 0) (6, 0)).board ((6 : Int), (0 : Int)) =
      some { c3King with pos := (6, 0) }) ∧
    ({ c3King with pos := ((6 : Int), (0 : Int)) } : Piece).lastMoveTime = none ∧
    (aget (moveStep (moveStep c3CexState (4, 0) (6, 0)) (6, 0) (8, 0)).board
        ((8 : Int), (0 : Int)) = some { c3King with pos := (8, 0) }) ∧
    (aget (moveStep (moveStep c3CexState (4, 0) (6, 0)) (6, 0) (8, 0)).board
        ((7 : Int), (0 : Int)) = some { c3RookB with pos := (7, 0) }) ∧
    c3RookB.player ≠ c3King.player := by
  decide

theorem c3_witness :
    (streaksOf c3CexState.board 16 8 Kind.king (4, 0) 0 (some 3) =
      kingNeighborStreaks 4 0) ∧
    (∃ j : Nat, 2 < j ∧
      aget c3CexState.board ((4 : Int) + (j : Int) * 1, (0 : Int)) = some c3RookA ∧
      c3RookA.kind = Kind.rook ∧ c3RookA.lastMoveTime = none ∧
      ∀ i : Nat, 1 ≤ i → i < j →
        aget c3CexState.board ((4 : Int) + (i : Int) * 1, (0 : Int)) = none) ∧
    (doMove c3CexState c3King (c3King.pos.1 + 2 * 1, c3King.pos.2) =
      (castleCore c3CexState c3King (c3King.pos.1 + 2 * 1, c3King.pos.2) c3RookA 1,
        MoveOut.ok)) ∧
    (∃ (c₀ : Coord) (q₀ : Piece), aget c3CexState.board c₀ = some q₀ ∧
      q₀.id = ({ c3King with pos := ((6 : Int), (0 : Int)) } : Piece).id ∧
      q₀.kind = Kind.king ∧ q₀.lastMoveTime = none) := by
  refine ⟨c3_castling.1 c3CexState.board 16 8 (4, 0) 0 3, ?_, ?_, ?_⟩
  · exact c3_castling.2.1 c3CexState.board 16 8 4 0 1 c3RookA (Or.inl rfl) (by decide)
  · exact (c3_castling.2.2.1 c3CexState c3King c3RookA 1 (Or.inl rfl)
      (by unfold posC; decide) rfl (by decide)).1
  · exact c3_castling.2.2.2 c3CexState (4, 0) (6, 0) (6, 0)
      { c3King with pos := ((6 : Int), (0 : Int)) } (by decide) rfl rfl

/-- Iterated scheduler ticks preserve reachability. -/
theorem reach_tick_iter {g : Game} (h : Reach g) : ∀ n : Nat, Reach (tickG^[n] g) := by
  intro n
  induction n with
  | zero => exact h
  | succ m ih =>
    rw [Function.iterate_succ_apply']
    exact Reach.tick ih

/-- A reachable state in which the castling destination equals the found
Rook's square: from the initial board, the pawn, Knight and Bishop clear the
King's rank (waiting out the 20-tick player cooldown between moves), then the
King castles onto (7,0) itself. -/
def c10Cex : Game :=
  moveStep (moveStep (tickG^[20] (moveStep (tickG^[20]
    (moveStep (gmInit 1) (6, 1) (6, 2))) (6, 0) (5, 2))) (5, 0) (6, 1)) (4, 0) (7, 0)

/-- C10: in every reachable state the board mapping is self-consistent:
every key holds a piece recording that key as its position, keys are
distinct, piece identities are distinct, and a piece record is reachable
under at most one key. -/
theorem c10_board_consistency (g : Game) (h : Reach g) :
    posC g.board ∧ (g.board.map Prod.fst).Nodup ∧ (bids g.board).Nodup ∧
    ∀ (c1 c2 : Coord) (p : Piece), aget g.board c1 = some p →
      aget g.board c2 = some p → c1 = c2 := by
  obtain ⟨hkeys, hids, hpos, hbound⟩ := WF_reach h
  refine ⟨hpos, hkeys, hids, ?_⟩
  intro c1 c2 p h1 h2
  have e1 := posC_aget hpos h1
  have e2 := posC_aget hpos h2
  rw [← e1, ← e2]

theorem c10_witness :
    posC (gmInit 1).board ∧ ((gmInit 1).board.map Prod.fst).Nodup ∧
    (bids (gmInit 1).board).Nodup ∧
    ∀ (c1 c2 : Coord) (p : Piece), aget (gmInit 1).board c1 = some p →
      aget (gmInit 1).board c2 = some p → c1 = c2 :=
  c10_board_consistency (gmInit 1) (Reach.init 1)

/-- In the reachable state `c10Cex` the King (identity 8) was created, never
died, yet sits under no key: King.move's castling branch deleted it when the
destination coincided with the Rook's square. A living piece need not appear
under exactly one key. -/
theorem c10_counterexample :
    Reach c10Cex ∧ 8 ∈ c10Cex.createdIds ∧ 8 ∉ c10Cex.graveyard ∧
      8 ∉ bids c10Cex.board := by
  constructor
  · unfold c10Cex
    exact Reach.mv _ _ (Reach.mv _ _ (reach_tick_iter (Reach.mv _ _
      (reach_tick_iter (Reach.mv _ _ (Reach.init 1)) 20)) 20))
  · decide

/-- Unfolding a movement ray one step. -/
theorem rayL_succ (s dir : Coord) (fuel : Nat) :
    rayL s dir (fuel + 1) =
      (s.1 + dir.1, s.2 + dir.2) :: rayL (s.1 + dir.1, s.2 + dir.2) dir fuel := by
  have h : rayL (s.1 + dir.1, s.2 + dir.2) dir fuel =
      (List.range fuel).map
        (fun d : Nat => (s.1 + ((d : Int) + 2) * dir.1, s.2 + ((d : Int) + 2) * dir.2)) := by
    unfold rayL
    apply List.map_congr_left
    intro d hd
    simp only [Prod.mk.injEq]
    constructor <;> ring
  rw [h]
  unfold rayL
  rw [List.range_succ_eq_map, List.map_cons, List.map_map]
  congr 1
  all_goals rw [Prod.mk.injEq]
  all_goals constructor <;> norm_num

/-- A destination yielded by base_moves along a ray sits `m ≥ 1` steps out,
is in bounds, and every strictly nearer ray square is empty and in bounds. -/
theorem streakTake_rayL_mem {b : Board} {W H : Int} {side : Nat} {dir : Coord} :
    ∀ (fuel : Nat) (s t : Coord), t ∈ streakTake b W H side (rayL s dir fuel) →
      ∃ m : Nat, 1 ≤ m ∧ m ≤ fuel ∧
        t = (s.1 + (m : Int) * dir.1, s.2 + (m : Int) * dir.2) ∧ inB W H t = true ∧
        ∀ i : Nat, 1 ≤ i → i < m →
          aget b (s.1 + (i : Int) * dir.1, s.2 + (i : Int) * dir.2) = none ∧
          inB W H (s.1 + (i : Int) * dir.1, s.2 + (i : Int) * dir.2) = true := by
  intro fuel
  induction fuel with
  | zero =>
    intro s t h
    simp [rayL, streakTake] at h
  | succ n ih =>
    intro s t h
    rw [rayL_succ] at h
    cases hv : aget b (s.1 + dir.1, s.2 + dir.2) with
    | some qq =>
      simp only [streakTake, hv] at h
      split at h
      · simp at h
      · split at h
        · rename_i hside hin
          simp at h
          subst h
          refine ⟨1, le_refl 1, by omega, by norm_num, hin, ?_⟩
          intro i h1 h2
          exact absurd h2 (by omega)
        · simp at h
    | none =>
      simp only [streakTake, hv] at h
      split at h
      · rename_i hin
        rw [List.mem_cons] at h
        rcases h with rfl | h
        · exact ⟨1, le_refl 1, by omega, by norm_num, hin,
            fun i h1 h2 => absurd h2 (by omega)⟩
        · obtain ⟨m, hm1, hmn, ht, htin, hemp⟩ := ih (s.1 + dir.1, s.2 + dir.2) t h
          refine ⟨m + 1, by omega, by omega, ?_, htin, ?_⟩
          · rw [ht]
            rw [Prod.mk.injEq]
            constructor <;> push_cast <;> ring
          · intro i h1 h2
            by_cases hi : i = 1
            · subst hi
              simp only [Nat.cast_one, one_mul]
              exact ⟨hv, hin⟩
            · have hstep := hemp (i - 1) (by omega) (by omega)
              have hc1 : ((i - 1 : Nat) : Int) = (i : Int) - 1 := by omega
              have hco : ((s.1 + dir.1) + ((i - 1 : Nat) : Int) * dir.1,
                  (s.2 + dir.2) + ((i - 1 : Nat) : Int) * dir.2) =
                  (s.1 + (i : Int) * dir.1, s.2 + (i : Int) * dir.2) := by
                rw [Prod.mk.injEq]
                rw [hc1]
                constructor <;> ring
              rw [← hco]
              exact hstep
      · simp at h

/-- A destination yielded by base_moves from a singleton streak is that
square, and it is in bounds. -/
theorem streakTake_singleton_mem {b : Board} {W H : Int} {side : Nat} {t t0 : Coord}
    (h : t ∈ streakTake b W H side [t0]) : t = t0 ∧ inB W H t0 = true := by
  cases hv : aget b t0 with
  | some qq =>
    simp only [streakTake, hv] at h
    split at h
    · simp at h
    · split at h
      · rename_i hside hin
        simp at h
        exact ⟨h, hin⟩
      · simp at h
  | none =>
    simp only [streakTake, hv] at h
    split at h
    · rename_i hin
      rw [List.mem_cons] at h
      rcases h with rfl | h
      · exact ⟨rfl, hin⟩
      · simp [streakTake] at h
    · simp at h

/-- Soundness of the King.sight threat scan: every yielded square is occupied
by a piece whose base_moves contain the King's square. -/
theorem kingThreatScan_sound {b : Board} {W H : Int} {kpos : Coord} :
    ∀ (l : List Coord) (t : Coord), t ∈ kingThreatScan b W H kpos l →
      ∃ q : Piece, aget b t = some q ∧
        kpos ∈ baseMovesOf b W H q.kind q.pos q.player q.lastMoveTime := by
  intro l
  induction l with
  | nil =>
    intro t h
    simp [kingThreatScan] at h
  | cons hd tl ih =>
    intro t h
    cases hin : inB W H hd with
    | false => simp [kingThreatScan, hin] at h
    | true =>
      cases hv : aget b hd with
      | some q =>
        simp only [kingThreatScan, hin, hv, if_true] at h
        split at h
        · rename_i hb
          simp at h
          subst h
          exact ⟨q, hv, hb⟩
        · simp at h
      | none =>
        simp only [kingThreatScan, hin, hv, if_true] at h
        exact ih t h

/-- Completeness of the King.sight threat scan along a ray: when the `m`-th
ray square holds a piece whose base_moves contain the King's square and every
nearer ray square is empty and in bounds, the scan yields that square. -/
theorem kingThreatScan_hit {b : Board} {W H : Int} {kpos : Coord} {q : Piece}
    {dir : Coord} :
    ∀ (fuel m : Nat) (s : Coord), 1 ≤ m → m ≤ fuel →
      (∀ i : Nat, 1 ≤ i → i < m →
        aget b (s.1 + (i : Int) * dir.1, s.2 + (i : Int) * dir.2) = none ∧
        inB W H (s.1 + (i : Int) * dir.1, s.2 + (i : Int) * dir.2) = true) →
      inB W H (s.1 + (m : Int) * dir.1, s.2 + (m : Int) * dir.2) = true →
      aget b (s.1 + (m : Int) * dir.1, s.2 + (m : Int) * dir.2) = some q →
      kpos ∈ baseMovesOf b W H q.kind q.pos q.player q.lastMoveTime →
      (s.1 + (m : Int) * dir.1, s.2 + (m : Int) * dir.2) ∈
        kingThreatScan b W H kpos (rayL s dir fuel) := by
  intro fuel
  induction fuel with
  | zero =>
    intro m s h1 h2
    omega
  | succ n ih =>
    intro m s h1 h2 hemp hin hget hatk
    rw [rayL_succ]
    by_cases hm : m = 1
    · subst hm
      have hin1 : inB W H (s.1 + dir.1, s.2 + dir.2) = true := by
        have he : ((s.1 + ((1 : Nat) : Int) * dir.1, s.2 + ((1 : Nat) : Int) * dir.2) :
            Coord) = (s.1 + dir.1, s.2 + dir.2) := by
          norm_num
        rw [← he]
        exact hin
      have hget1 : aget b (s.1 + dir.1, s.2 + dir.2) = some q := by
        have he : ((s.1 + ((1 : Nat) : Int) * dir.1, s.2 + ((1 : Nat) : Int) * dir.2) :
            Coord) = (s.1 + dir.1, s.2 + dir.2) := by
          norm_num
        rw [← he]
        exact hget
      simp only [kingThreatScan, hin1, hget1, if_true, hatk, if_pos]
      norm_num
    · have hd1 : aget b (s.1 + dir.1, s.2 + dir.2) = none := by
        have hstep := (hemp 1 (le_refl 1) (by omega)).1
        simpa using hstep
      have hi1 : inB W H (s.1 + dir.1, s.2 + dir.2) = true := by
        have hstep := (hemp 1 (le_refl 1) (by omega)).2
        simpa using hstep
      have hco : ∀ k : Nat, ((s.1 + dir.1) + (k : Int) * dir.1,
          (s.2 + dir.2) + (k : Int) * dir.2) =
          ((s.1 + ((k + 1 : Nat) : Int) * dir.1, s.2 + ((k + 1 : Nat) : Int) * dir.2) :
            Coord) := by
        intro k
        rw [Prod.mk.injEq]
        constructor <;> push_cast <;> ring
      have hrec := ih (m - 1) (s.1 + dir.1, s.2 + dir.2) (by omega) (by omega)
        (fun i hi1 hi2 => by
          rw [hco i]
          have hx : ((i + 1 : Nat)) = i + 1 := rfl
          have := hemp (i + 1) (by omega) (by omega)
          exact this)
        (by
          rw [hco (m - 1)]
          have he : (m - 1 + 1 : Nat) = m := by omega
          rw [he]
          exact hin)
        (by
          rw [hco (m - 1)]
          have he : (m - 1 + 1 : Nat) = m := by omega
          rw [he]
          exact hget)
        hatk
      have htarget : ((s.1 + dir.1) + ((m - 1 : Nat) : Int) * dir.1,
          (s.2 + dir.2) + ((m - 1 : Nat) : Int) * dir.2) =
          ((s.1 + (m : Int) * dir.1, s.2 + (m : Int) * dir.2) : Coord) := by
        rw [hco (m - 1)]
        have he : (m - 1 + 1 : Nat) = m := by omega
        rw [he]
      rw [← htarget]
      simp only [kingThreatScan, hi1, hd1, if_true]
      exact hrec

/-- The eight Knight jump offsets, in Knight._moves source order. -/
def knightOffsets : List Coord :=
  [(-1, -2), (-2, -1), (-1, 2), (2, -1), (1, -2), (-2, 1), (1, 2), (2, 1)]

/-- The eight King neighbor offsets, in King._moves source order. -/
def kingNbrOffsets : List Coord :=
  [(-1, -1), (-1, 0), (-1, 1), (0, -1), (0, 1), (1, -1), (1, 0), (1, 1)]

theorem knightStreaks_eq (x y : Int) :
    knightStreaks x y = knightOffsets.map (fun o => [(x + o.1, y + o.2)]) := by
  norm_num [knightStreaks, knightOffsets]
  omega

theorem kingNeighborStreaks_eq (x y : Int) :
    kingNeighborStreaks x y = kingNbrOffsets.map (fun o => [(x + o.1, y + o.2)]) := by
  norm_num [kingNeighborStreaks, kingNbrOffsets]
  omega

theorem neg_mem_knightOffsets {o : Coord} (h : o ∈ knightOffsets) :
    ((-o.1, -o.2) : Coord) ∈ knightOffsets := by
  simp only [knightOffsets, List.mem_cons, List.not_mem_nil, or_false] at h
  rcases h with rfl | rfl | rfl | rfl | rfl | rfl | rfl | rfl <;> decide

theorem neg_nbr_unit_dir {o : Coord} (h : o ∈ kingNbrOffsets) :
    ((-o.1, -o.2) : Coord) ∈ rookDirs ∨ ((-o.1, -o.2) : Coord) ∈ bishopDirs := by
  simp only [kingNbrOffsets, List.mem_cons, List.not_mem_nil, or_false] at h
  rcases h with rfl | rfl | rfl | rfl | rfl | rfl | rfl | rfl <;> decide

theorem neg_mem_rookDirs {d : Coord} (h : d ∈ rookDirs) :
    ((-d.1, -d.2) : Coord) ∈ rookDirs := by
  simp only [rookDirs, List.mem_cons, List.not_mem_nil, or_false] at h
  rcases h with rfl | rfl | rfl | rfl <;> decide

theorem neg_mem_bishopDirs {d : Coord} (h : d ∈ bishopDirs) :
    ((-d.1, -d.2) : Coord) ∈ bishopDirs := by
  simp only [bishopDirs, List.mem_cons, List.not_mem_nil, or_false] at h
  rcases h with rfl | rfl | rfl | rfl <;> decide

/-- base_moves yields only squares of the streak it filters. -/
theorem streakTake_subset {b : Board} {W H : Int} {side : Nat} :
    ∀ (l : List Coord) (t : Coord), t ∈ streakTake b W H side l → t ∈ l := by
  intro l
  induction l with
  | nil => intro t h; simp [streakTake] at h
  | cons hd tl ih =>
    intro t h
    cases hv : aget b hd with
    | some qq =>
      simp only [streakTake, hv] at h
      split at h
      · simp at h
      · split at h
        · simp at h
          simp [h]
        · simp at h
    | none =>
      simp only [streakTake, hv] at h
      split at h
      · rw [List.mem_cons] at h
        rcases h with rfl | h
        · exact List.mem_cons_self _ _
        · exact List.mem_cons_of_mem _ (ih t h)
      · simp at h

/-- An in-bounds square forces a positive ray fuel. -/
theorem inB_fuel {W H : Int} {c : Coord} (h : inB W H c = true) : 1 ≤ fuelWH W H := by
  have h2 : 0 ≤ c.1 ∧ c.1 < W ∧ 0 ≤ c.2 ∧ c.2 < H := by
    simpa [inB] using h
  unfold fuelWH
  omega

/-- The threat scan yields an adjacent attacker: the attacker's square is the
first square of the unit ray toward it. -/
theorem unit_reverse_hit {b : Board} {W H : Int} {kpos : Coord} {q : Piece}
    {d : Coord} (hfuel : 1 ≤ fuelWH W H)
    (htgt : q.pos = (kpos.1 + d.1, kpos.2 + d.2))
    (hqin : inB W H q.pos = true) (hq : aget b q.pos = some q)
    (hatk : kpos ∈ baseMovesOf b W H q.kind q.pos q.player q.lastMoveTime) :
    q.pos ∈ kingThreatScan b W H kpos (rayL kpos d (fuelWH W H)) := by
  have hco : ((kpos.1 + ((1 : Nat) : Int) * d.1, kpos.2 + ((1 : Nat) : Int) * d.2) :
      Coord) = q.pos := by
    rw [htgt, Prod.mk.injEq]
    constructor <;> norm_num
  rw [← hco]
  exact kingThreatScan_hit (fuelWH W H) 1 kpos (le_refl 1) hfuel
    (fun i h1 h2 => absurd h2 (by omega))
    (by rw [hco]; exact hqin) (by rw [hco]; exact hq) hatk

/-- The threat scan yields a sliding attacker: reverse the ray the attack
used; the in-between squares are the same squares, so they are empty and in
bounds, and the attacker is the first piece the scan meets. -/
theorem slide_reverse_hit {b : Board} {W H : Int} {kpos : Coord} {q : Piece}
    {dir : Coord} {side : Nat} {fuel : Nat}
    (hq : aget b q.pos = some q) (hqin : inB W H q.pos = true)
    (hatk : kpos ∈ baseMovesOf b W H q.kind q.pos q.player q.lastMoveTime)
    (hmem : kpos ∈ streakTake b W H side (rayL q.pos dir fuel)) :
    q.pos ∈ kingThreatScan b W H kpos (rayL kpos (-dir.1, -dir.2) fuel) := by
  obtain ⟨m, hm1, hmf, hkpos_eq, hkin, hemp⟩ := streakTake_rayL_mem fuel q.pos kpos hmem
  have hrev : ∀ i : Nat,
      ((kpos.1 + (i : Int) * (-dir.1, -dir.2).1,
        kpos.2 + (i : Int) * (-dir.1, -dir.2).2) : Coord) =
      (q.pos.1 + ((m : Int) - i) * dir.1, q.pos.2 + ((m : Int) - i) * dir.2) := by
    intro i
    rw [hkpos_eq, Prod.mk.injEq]
    constructor <;> push_cast <;> ring
  have htgt : ((kpos.1 + (m : Int) * (-dir.1, -dir.2).1,
      kpos.2 + (m : Int) * (-dir.1, -dir.2).2) : Coord) = q.pos := by
    rw [hrev m, Prod.mk.injEq]
    constructor <;> simp
  rw [← htgt]
  refine kingThreatScan_hit fuel m kpos hm1 hmf ?_ ?_ ?_ hatk
  · intro i h1 h2
    have hj := hemp (m - i) (by omega) (by omega)
    have hcast : ((m - i : Nat) : Int) = (m : Int) - i := by omega
    rw [hrev i, ← hcast]
    exact hj
  · rw [htgt]
    exact hqin
  · rw [htgt]
    exact hq

/-- Completeness of King.sight's threat squares: any piece standing (in
bounds, at its recorded square) whose base_moves contain the occupied square
`kpos` is found by the threat scan from `kpos`. -/
theorem kingThreat_complete {b : Board} {W H : Int} {kpos : Coord} {q : Piece}
    (hk : aget b kpos ≠ none)
    (hq : aget b q.pos = some q) (hqin : inB W H q.pos = true)
    (hatk0 : kpos ∈ baseMovesOf b W H q.kind q.pos q.player q.lastMoveTime) :
    q.pos ∈ kingThreat b W H kpos := by
  have hfuel : 1 ≤ fuelWH W H := inB_fuel hqin
  have hatk := hatk0
  rw [baseMovesOf, List.mem_flatMap] at hatk
  obtain ⟨streak, hstreak, hmem⟩ := hatk
  rw [kingThreat, List.mem_flatMap]
  cases hqk : q.kind with
  | rook =>
    rw [hqk] at hstreak
    simp only [streaksOf, slideStreaks, List.mem_map] at hstreak
    obtain ⟨dir, hdir, rfl⟩ := hstreak
    refine ⟨rayL kpos (-dir.1, -dir.2) (fuelWH W H), ?_, ?_⟩
    · refine List.mem_append_right _ (List.mem_append_left _ ?_)
      simp only [slideStreaks, List.mem_map]
      exact ⟨(-dir.1, -dir.2), neg_mem_rookDirs hdir, rfl⟩
    · exact slide_reverse_hit hq hqin hatk0 hmem
  | bishop =>
    rw [hqk] at hstreak
    simp only [streaksOf, slideStreaks, List.mem_map] at hstreak
    obtain ⟨dir, hdir, rfl⟩ := hstreak
    refine ⟨rayL kpos (-dir.1, -dir.2) (fuelWH W H), ?_, ?_⟩
    · refine List.mem_append_right _ (List.mem_append_right _ ?_)
      simp only [slideStreaks, List.mem_map]
      exact ⟨(-dir.1, -dir.2), neg_mem_bishopDirs hdir, rfl⟩
    · exact slide_reverse_hit hq hqin hatk0 hmem
  | queen =>
    rw [hqk] at hstreak
    simp only [streaksOf] at hstreak
    rcases List.mem_append.1 hstreak with hs | hs
    · simp only [slideStreaks, List.mem_map] at hs
      obtain ⟨dir, hdir, rfl⟩ := hs
      refine ⟨rayL kpos (-dir.1, -dir.2) (fuelWH W H), ?_, ?_⟩
      · refine List.mem_append_right _ (List.mem_append_left _ ?_)
        simp only [slideStreaks, List.mem_map]
        exact ⟨(-dir.1, -dir.2), neg_mem_rookDirs hdir, rfl⟩
      · exact slide_reverse_hit hq hqin hatk0 hmem
    · simp only [slideStreaks, List.mem_map] at hs
      obtain ⟨dir, hdir, rfl⟩ := hs
      refine ⟨rayL kpos (-dir.1, -dir.2) (fuelWH W H), ?_, ?_⟩
      · refine List.mem_append_right _ (List.mem_append_right _ ?_)
        simp only [slideStreaks, List.mem_map]
        exact ⟨(-dir.1, -dir.2), neg_mem_bishopDirs hdir, rfl⟩
      · exact slide_reverse_hit hq hqin hatk0 hmem
  | knight =>
    rw [hqk] at hstreak
    simp only [streaksOf] at hstreak
    rw [knightStreaks_eq, List.mem_map] at hstreak
    obtain ⟨o, ho, rfl⟩ := hstreak
    obtain ⟨hkp, hin0⟩ := streakTake_singleton_mem hmem
    have htgt : q.pos = ((kpos.1 + -o.1 : Int), (kpos.2 + -o.2 : Int)) := by
      rw [hkp, Prod.ext_iff]
      constructor <;> simp
    refine ⟨[((kpos.1 + -o.1 : Int), (kpos.2 + -o.2 : Int))], ?_, ?_⟩
    · refine List.mem_append_left _ ?_
      rw [knightStreaks_eq kpos.1 kpos.2, List.mem_map]
      exact ⟨(-o.1, -o.2), neg_mem_knightOffsets ho, rfl⟩
    · rw [← htgt]
      simp [kingThreatScan, hqin, hq, hatk0]
  | king =>
    rw [hqk] at hstreak
    simp only [streaksOf] at hstreak
    rcases List.mem_append.1 hstreak with hs | hs
    · rw [kingNeighborStreaks_eq, List.mem_map] at hs
      obtain ⟨o, ho, rfl⟩ := hs
      obtain ⟨hkp, hin0⟩ := streakTake_singleton_mem hmem
      have htgt : q.pos = ((kpos.1 + -o.1 : Int), (kpos.2 + -o.2 : Int)) := by
        rw [hkp, Prod.ext_iff]
        constructor <;> simp
      rcases neg_nbr_unit_dir ho with hu | hu
      · refine ⟨rayL kpos (-o.1, -o.2) (fuelWH W H), ?_, ?_⟩
        · refine List.mem_append_right _ (List.mem_append_left _ ?_)
          simp only [slideStreaks, List.mem_map]
          exact ⟨(-o.1, -o.2), hu, rfl⟩
        · exact unit_reverse_hit hfuel htgt hqin hq hatk0
      · refine ⟨rayL kpos (-o.1, -o.2) (fuelWH W H), ?_, ?_⟩
        · refine List.mem_append_right _ (List.mem_append_right _ ?_)
          simp only [slideStreaks, List.mem_map]
          exact ⟨(-o.1, -o.2), hu, rfl⟩
        · exact unit_reverse_hit hfuel htgt hqin hq hatk0
    · by_cases hlmt : q.lastMoveTime = none
      · rw [if_pos hlmt, List.mem_filterMap] at hs
        obtain ⟨d, hd, hsome⟩ := hs
        by_cases hcb : (castlingB b W H q.pos.1 q.pos.2 d).isSome = true
        · rw [if_pos hcb] at hsome
          injection hsome with hstr
          subst hstr
          obtain ⟨hkp, hin0⟩ := streakTake_singleton_mem hmem
          obtain ⟨rk, hrk⟩ := Option.isSome_iff_exists.1 hcb
          have hd2 : d = 1 ∨ d = -1 := by
            simp only [List.mem_cons, List.not_mem_nil, or_false] at hd
            rcases hd with rfl | rfl
            · exact Or.inr rfl
            · exact Or.inl rfl
          obtain ⟨j, hj2, hjget, hjk, hjl, hjemp⟩ := castlingB_sound hd2 hrk
          have h2 := (hjemp 2 (by omega) (by omega)).1
          have hco : ((q.pos.1 + ((2 : Nat) : Int) * d, q.pos.2) : Coord) = kpos := by
            rw [hkp, Prod.mk.injEq]
            constructor <;> push_cast <;> ring
          rw [hco] at h2
          exact absurd h2 hk
        · rw [if_neg hcb] at hsome
          exact absurd hsome (by simp)
      · rw [if_neg hlmt] at hs
        simp at hs
  | pawn =>
    rw [hqk] at hstreak
    simp only [streaksOf, pawnStreaks] at hstreak
    rw [List.mem_cons] at hstreak
    rcases hstreak with rfl | hs
    · have hsub := streakTake_subset _ kpos hmem
      have hnone := List.mem_takeWhile_imp hsub
      simp only [Option.isNone_iff_eq_none] at hnone
      exact absurd hnone hk
    · rw [List.mem_filterMap] at hs
      obtain ⟨a, ha, hsome⟩ := hs
      by_cases hocc : (aget b (a, q.pos.2 +
          (if q.player % 2 ≠ 0 then (-1 : Int) else 1))).isSome = true
      · rw [if_pos hocc] at hsome
        injection hsome with hstr
        subst hstr
        obtain ⟨hkp, hin0⟩ := streakTake_singleton_mem hmem
        simp only [List.mem_cons, List.not_mem_nil, or_false] at ha
        by_cases hside : q.player % 2 ≠ 0
        · rw [if_pos hside] at hkp
          rcases ha with rfl | rfl
          · refine ⟨rayL kpos (1, 1) (fuelWH W H), ?_, ?_⟩
            · refine List.mem_append_right _ (List.mem_append_right _ ?_)
              simp only [slideStreaks, List.mem_map]
              exact ⟨(1, 1), by decide, rfl⟩
            · refine unit_reverse_hit hfuel ?_ hqin hq hatk0
              rw [hkp, Prod.ext_iff]
              constructor <;> simp
          · refine ⟨rayL kpos (-1, 1) (fuelWH W H), ?_, ?_⟩
            · refine List.mem_append_right _ (List.mem_append_right _ ?_)
              simp only [slideStreaks, List.mem_map]
              exact ⟨(-1, 1), by decide, rfl⟩
            · refine unit_reverse_hit hfuel ?_ hqin hq hatk0
              rw [hkp, Prod.ext_iff]
              constructor <;> simp
        · rw [if_neg hside] at hkp
          rcases ha with rfl | rfl
          · refine ⟨rayL kpos (1, -1) (fuelWH W H), ?_, ?_⟩
            · refine List.mem_append_right _ (List.mem_append_right _ ?_)
              simp only [slideStreaks, List.mem_map]
              exact ⟨(1, -1), by decide, rfl⟩
            · refine unit_reverse_hit hfuel ?_ hqin hq hatk0
              rw [hkp, Prod.ext_iff]
              constructor <;> simp
          · refine ⟨rayL kpos (-1, -1) (fuelWH W H), ?_, ?_⟩
            · refine List.mem_append_right _ (List.mem_append_right _ ?_)
              simp only [slideStreaks, List.mem_map]
              exact ⟨(-1, -1), by decide, rfl⟩
            · refine unit_reverse_hit hfuel ?_ hqin hq hatk0
              rw [hkp, Prod.ext_iff]
              constructor <;> simp
      · rw [if_neg hocc] at hsome
        exact absurd hsome (by simp)

/-- Piece.base_moves destinations are always within Piece.sight. -/
theorem baseMoves_subset_sight (g : Game) (p : Piece) :
    ∀ c, c ∈ baseMoves g p → c ∈ sightF g p := by
  intro c hc
  rw [baseMoves] at hc
  rw [sightF]
  cases hk : p.kind <;> rw [hk] at hc <;> simp only [sightOf] <;>
    first
    | exact hc
    | exact List.mem_append_left _ hc

/-- A tiny position: a King at (4,0) under attack by the opposing Rook at
(4,5) along the open file. -/
def c9King : Piece :=
  { id := 0, kind := Kind.king, player := 0, pos := (4, 0), freezeUntil := 0,
    lastMoveTime := none, lastPos := none, hasKingHandler := false }

def c9Rook : Piece :=
  { id := 1, kind := Kind.rook, player := 1, pos := (4, 5), freezeUntil := 0,
    lastMoveTime := none, lastPos := none, hasKingHandler := false }

def c9State : Game :=
  { newGame with board := [((4, 0), c9King), ((4, 5), c9Rook)], nextId := 2 }

/-- C9: for every piece, moves() is a subset of sight(): sight is computed
from the board, bounds, kind, position, owner and last-move time only, never
from the cooldown fields or the clock, so the inclusion holds even while the
piece or its player is frozen (moves() is then empty). For the King, the
extra sight squares are exactly squares occupied by threatening pieces: the
threat scan is sound, and it is complete for any threatening piece standing
in bounds at its recorded square. -/
theorem c9_sight :
    (∀ (g : Game) (p : Piece) (c : Coord), c ∈ movesF g p → c ∈ sightF g p)
    ∧
    (∀ (g : Game) (p : Piece) (cnt : Nat) (pf : List (Nat × Nat)) (fz : Nat),
      sightF { g with counter := cnt, playerFreeze := pf }
          { p with freezeUntil := fz } = sightF g p)
    ∧
    (∀ (b : Board) (W H : Int) (kpos t : Coord), t ∈ kingThreat b W H kpos →
      ∃ q : Piece, aget b t = some q ∧
        kpos ∈ baseMovesOf b W H q.kind q.pos q.player q.lastMoveTime)
    ∧
    (∀ (g : Game) (p q : Piece), aget g.board p.pos = some p → p.kind = Kind.king →
      aget g.board q.pos = some q → inB g.boardW g.boardH q.pos = true →
      p.pos ∈ baseMoves g q → q.pos ∈ sightF g p) := by
  refine ⟨?_, ?_, ?_, ?_⟩
  · intro g p c hc
    rw [movesF] at hc
    split at hc
    · simp at hc
    · exact baseMoves_subset_sight g p c hc
  · intro g p cnt pf fz
    rfl
  · intro b W H kpos t ht
    rw [kingThreat, List.mem_flatMap] at ht
    obtain ⟨streak, hstreak, hmem⟩ := ht
    exact kingThreatScan_sound streak t hmem
  · intro g p q hp hpk hq hqin hatk
    rw [baseMoves] at hatk
    have hne : aget g.board p.pos ≠ none := by
      rw [hp]
      exact fun hcon => Option.noConfusion hcon
    have hthreat : q.pos ∈ kingThreat g.board g.boardW g.boardH p.pos :=
      kingThreat_complete hne hq hqin hatk
    rw [sightF, hpk]
    simp only [sightOf]
    exact List.mem_append_right _ hthreat

theorem c9_witness :
    (((4 : Int), (1 : Int)) ∈ sightF c9State c9King) ∧
    (sightF { c9State with counter := 99, playerFreeze := [(0, 200)] }
        { c9King with freezeUntil := 150 } = sightF c9State c9King) ∧
    (∃ q : Piece, aget c9State.board ((4 : Int), (5 : Int)) = some q ∧
      ((4 : Int), (0 : Int)) ∈ baseMovesOf c9State.board c9State.boardW c9State.boardH
        q.kind q.pos q.player q.lastMoveTime) ∧
    c9Rook.pos ∈ sightF c9State c9King := by
  refine ⟨?_, ?_, ?_, ?_⟩
  · exact c9_sight.1 c9State c9King (4, 1) (by decide)
  · exact c9_sight.2.1 c9State c9King 99 [(0, 200)] 150
  · exact c9_sight.2.2.1 c9State.board c9State.boardW c9State.boardH (4, 0) (4, 5)
      (by decide)
  · exact c9_sight.2.2.2 c9State c9King c9Rook (by decide) rfl (by decide) (by decide)
      (by decide)
